import Mathlib

/-!
# Verification of the cannon-rs MIPS fault-proof emulator core

A shallow embedding of the `mipsevm` crate of `anton-rs/cannon-rs` (memory with
its sparse merkle tree, the MIPS interpreter, the syscall surface, the witness
codec) together with theorems settling the specification claims.

Conventions of the embedding:
* Machine integers (`u32`, `u64`, `u128`) are `Nat` with explicit reductions
  `% 2 ^ w` where overflow matters, matching Rust release-mode semantics
  (wrapping arithmetic, shift amounts masked by the bit width).
* Byte strings (`Vec<u8>`, `[u8; 32]`) are `List Nat` of byte values; fixed
  arrays backing pages are functions `Nat → Nat` from byte offset to byte.
* Fallible code (`Result`) is `Except Err`; Rust panics (division by zero,
  out-of-range slicing) are distinguished `Err` constructors, since a panic
  aborts instead of returning a `Result`.
* The hash-map fields (`FxHashMap`) are functions into `Option`; the two-slot
  MRU page cache `Memory::last_page` is dropped because it is a pure lookup
  cache that is only ever populated from the page map (pages are never removed
  and page handles are shared), so `page_lookup` is observationally the map
  lookup.
-/

set_option maxHeartbeats 1000000
set_option maxRecDepth 10000

namespace Cannon

/-- `2 ^ 32`, the modulus of `u32` arithmetic. -/
def U32M : Nat := 4294967296

/-- `2 ^ 64`, the modulus of `u64` arithmetic. -/
def U64M : Nat := 18446744073709551616

/-- Wrapping `u32` result (Rust release-mode overflow semantics). -/
def wrap32 (x : Nat) : Nat := x % U32M

/-- Wrapping `u32` subtraction `a - b`. -/
def sub32 (a b : Nat) : Nat := (a % U32M + (U32M - b % U32M)) % U32M

/-- Rust `u32` left shift: the shift amount is masked by 31 (release mode). -/
def shl32 (x n : Nat) : Nat := (x <<< (n % 32)) % U32M

/-- Rust `u32` right shift: the shift amount is masked by 31 (release mode). -/
def shr32 (x n : Nat) : Nat := (x % U32M) >>> (n % 32)

/-- Interpret a `u32` value as the corresponding `i32` (two's complement). -/
def toInt32 (x : Nat) : Int := if x % U32M < 2 ^ 31 then (x % U32M : Int) else (x % U32M : Int) - (U32M : Int)

/-- Reduce an `Int` back to the `u32` holding its low 32 bits. -/
def ofInt32 (z : Int) : Nat := (z % (U32M : Int)).toNat

/-- Big-endian bytes of a `u32` (`u32::to_be_bytes`). -/
def be4 (v : Nat) : List Nat :=
  [v / 2 ^ 24 % 256, v / 2 ^ 16 % 256, v / 2 ^ 8 % 256, v % 256]

/-- Big-endian bytes of a `u64` (`u64::to_be_bytes` / `usize::to_be_bytes`). -/
def be8 (v : Nat) : List Nat :=
  [v / 2 ^ 56 % 256, v / 2 ^ 48 % 256, v / 2 ^ 40 % 256, v / 2 ^ 32 % 256,
   v / 2 ^ 24 % 256, v / 2 ^ 16 % 256, v / 2 ^ 8 % 256, v % 256]

/-- `u32::from_be_bytes` on the first four bytes of a list. -/
def beWord (bs : List Nat) : Nat :=
  bs.getD 0 0 * 2 ^ 24 + bs.getD 1 0 * 2 ^ 16 + bs.getD 2 0 * 2 ^ 8 + bs.getD 3 0

/-- The `n` bytes of a byte array `d` starting at offset `off`. -/
def dataSlice (d : Nat → Nat) (off n : Nat) : List Nat :=
  (List.range n).map fun i => d (off + i)

/-- Bit length of a natural number (`64 - leading_zeros` on a `u64`). -/
def bitlen : Nat → Nat
  | 0 => 0
  | n + 1 => bitlen ((n + 1) / 2) + 1

/-! ## Keccak-256

The repository hashes with `alloy_primitives::keccak256` / `xkcp_rs::keccak256`
(third-party code); the permutation is implemented here from the Keccak
standard so that the embedding is closed.  State: 25 lanes of 64 bits, little
endian byte order within a lane, rate 136 bytes, original Keccak padding
`0x01 … 0x80`. -/

/-- 64-bit rotate left (lane operation of the Keccak permutation). -/
def rotl64 (x n : Nat) : Nat := ((x <<< (n % 64)) ||| (x >>> (64 - n % 64))) % U64M

/-- 64-bit bitwise complement. -/
def not64 (x : Nat) : Nat := x ^^^ (U64M - 1)

/-- The 24 round constants of Keccak-f[1600]. -/
def keccakRC : List Nat :=
  [1, 32898, 9223372036854808714, 9223372039002292224, 32907, 2147483649, 9223372039002292353,
   9223372036854808585, 138, 136, 2147516425, 2147483658, 2147516555, 9223372036854775947,
   9223372036854808713, 9223372036854808579, 9223372036854808578, 9223372036854775936, 32778,
   9223372039002259466, 9223372039002292353, 9223372036854808704, 2147483649,
   9223372039002292232]

/-- Source lane index of each output lane under the rho-pi permutation. -/
def keccakPiSrc : List Nat :=
  [0, 6, 12, 18, 24, 3, 9, 10, 16, 22, 1, 7, 13, 19, 20, 4, 5, 11, 17, 23, 2, 8, 14, 15, 21]

/-- Rotation amount applied to each output lane under rho-pi. -/
def keccakRot : List Nat :=
  [0, 44, 43, 21, 14, 28, 20, 3, 45, 61, 1, 6, 25, 8, 18, 27, 36, 10, 15, 56, 62, 55, 39, 41, 2]

/-- Theta step of the Keccak permutation. -/
def keccakTheta (s : List Nat) : List Nat :=
  let c := (List.range 5).map fun x =>
    s.getD x 0 ^^^ s.getD (x + 5) 0 ^^^ s.getD (x + 10) 0 ^^^ s.getD (x + 15) 0 ^^^ s.getD (x + 20) 0
  let d := (List.range 5).map fun x =>
    c.getD ((x + 4) % 5) 0 ^^^ rotl64 (c.getD ((x + 1) % 5) 0) 1
  (List.range 25).map fun i => s.getD i 0 ^^^ d.getD (i % 5) 0

/-- One round of Keccak-f[1600]: theta, rho-pi, chi, iota. -/
def keccakRound (s : List Nat) (rc : Nat) : List Nat :=
  let s := keccakTheta s
  let b := (List.range 25).map fun j => rotl64 (s.getD (keccakPiSrc.getD j 0) 0) (keccakRot.getD j 0)
  let s := (List.range 25).map fun j =>
    let x := j % 5
    let y := j / 5
    b.getD (x + 5 * y) 0 ^^^ (not64 (b.getD ((x + 1) % 5 + 5 * y) 0) &&& b.getD ((x + 2) % 5 + 5 * y) 0)
  (List.range 25).map fun j => if j = 0 then s.getD 0 0 ^^^ rc else s.getD j 0

/-- The Keccak-f[1600] permutation (24 rounds). -/
def keccakF (s : List Nat) : List Nat := keccakRC.foldl keccakRound s

/-- A 64-bit lane from 8 little-endian bytes. -/
def laneOfBytes (bs : List Nat) : Nat :=
  bs.getD 0 0 + bs.getD 1 0 * 2 ^ 8 + bs.getD 2 0 * 2 ^ 16 + bs.getD 3 0 * 2 ^ 24 +
  bs.getD 4 0 * 2 ^ 32 + bs.getD 5 0 * 2 ^ 40 + bs.getD 6 0 * 2 ^ 48 + bs.getD 7 0 * 2 ^ 56

/-- Absorb one 136-byte block into the sponge state. -/
def keccakAbsorbBlock (s : List Nat) (block : List Nat) : List Nat :=
  let s := (List.range 25).map fun i =>
    if i < 17 then s.getD i 0 ^^^ laneOfBytes ((block.drop (8 * i)).take 8) else s.getD i 0
  keccakF s

/-- Absorb a padded message, 136 bytes at a time. -/
def keccakAbsorb (s : List Nat) (msg : List Nat) : List Nat :=
  if msg.length = 0 then s
  else keccakAbsorb (keccakAbsorbBlock s (msg.take 136)) (msg.drop 136)
termination_by msg.length
decreasing_by
  simp only [List.length_drop]
  omega

/-- Keccak multi-rate padding `0x01 0x00 … 0x80` to a multiple of 136 bytes. -/
def keccakPad (msg : List Nat) : List Nat :=
  let padLen := 136 - msg.length % 136
  if padLen = 1 then msg ++ [0x81]
  else msg ++ 0x01 :: List.replicate (padLen - 2) 0 ++ [0x80]

/-- Keccak-256 of a byte string: 32 bytes (lanes 0–3, little endian). -/
def keccak256 (msg : List Nat) : List Nat :=
  let s := keccakAbsorb (List.replicate 25 0) (keccakPad msg)
  (List.range 32).map fun i => s.getD (i / 8) 0 / 2 ^ (8 * (i % 8)) % 256

/-- `keccak_concat_hashes` / `keccak_concat_fixed`: hash of two concatenated
32-byte digests. -/
def keccakConcat (a b : List Nat) : List Nat := keccak256 (a ++ b)

/-- The precomputed `ZERO_HASHES` table of `page.rs`:
`out[0] = 0^32`, `out[i+1] = keccak(out[i] ++ out[i])`.  Modelled as a function
on the level instead of a 256-entry array. -/
def zeroHashes : Nat → List Nat
  | 0 => List.replicate 32 0
  | n + 1 => keccakConcat (zeroHashes n) (zeroHashes n)

/-! ## Errors

The error kinds surfaced by the core (`anyhow::bail!` sites), together with
distinguished constructors for Rust panics: a panic aborts the process instead
of returning a `Result`, so a total embedding must represent it separately. -/

/-- Errors and panics of the embedded core. -/
inductive Err where
  /-- `set_memory` / `get_memory` bail on a misaligned address. -/
  | unalignedAccess (addr : Nat)
  /-- `Memory::invalidate` uses `panic!` (not `bail!`) on a misaligned address. -/
  | unalignedInvalidate (addr : Nat)
  /-- `CachedPage::invalidate` bails on a page address `≥ PAGE_SIZE`. -/
  | invalidPageAddress (addr : Nat)
  /-- Generalized index deeper than the 28-level tree. -/
  | gindexTooDeep (g : Nat)
  /-- "Cannot jump into intermediate node of page". -/
  | intoPageNode (g : Nat)
  /-- `traverse_branch` called below the word depth. -/
  | traversedTooDeep
  /-- Marker for source-level non-termination (recursion fuel exhausted). -/
  | divergence
  | unexpectedBranchInDelaySlot (pc : Nat)
  | unexpectedJumpInDelaySlot (pc : Nat)
  | invalidRegisterIndex (r : Nat)
  /-- `track_mem_access` bails on a second distinct address within one step. -/
  | memAccessConflict (prev next : Nat)
  | invalidFunctionCode (f : Nat)
  | invalidOpcode (o : Nat)
  /-- The preimage oracle `get` / `hint` call failed. -/
  | oracleFailure
  /-- Rust panic: slice indexing out of range. -/
  | sliceRangePanic
  /-- Rust panic: native division by zero in `handle_hi_lo` (div/divu). -/
  | divideByZeroPanic
  /-- Rust panic: `i32::MIN / -1` overflow in `handle_hi_lo` (div). -/
  | divOverflowPanic
  deriving DecidableEq, Repr

/-! ## Pages (`page.rs`)

`PAGE_ADDRESS_SIZE = 12`, `PAGE_SIZE = 4096`, `PAGE_SIZE_WORDS = 128`,
`PAGE_ADDRESS_MASK = 4095`, `PAGE_KEY_SIZE = 20`, `PAGE_KEY_MASK = 2^20 - 1`. -/

/-- `CachedPage`: 4096 data bytes, 128 cached intermediate digests, and the
`u128` validity bitmap (bit `127 - key` marks cache entry `key` valid). -/
structure CachedPage where
  data : Nat → Nat
  cache : Nat → List Nat
  valid : Nat

/-- `CachedPage::default()`: zero data, zero cache, empty validity bitmap. -/
def CachedPage.new : CachedPage :=
  { data := fun _ => 0, cache := fun _ => List.replicate 32 0, valid := 0 }

/-- `CachedPage::is_valid`: `valid & flag == flag` for `flag = 1 << (127 - key)`. -/
def CachedPage.is_valid (p : CachedPage) (key : Nat) : Bool :=
  p.valid &&& (1 <<< (127 - key)) == 1 <<< (127 - key)

/-- `CachedPage::invalidate`: clear the validity bits of every cache key
`≤ ((1 << 12) | page_addr) >> 6` (the source clears bit positions
`≥ 127 - key` via `valid &= !mask`, which keeps exactly the bits below
`127 - key`). -/
def CachedPage.invalidate (p : CachedPage) (page_addr : Nat) : Except Err CachedPage :=
  if 4096 ≤ page_addr then .error (.invalidPageAddress page_addr)
  else
    let key := ((1 <<< 12) ||| page_addr) >>> 6
    .ok { p with valid := p.valid &&& ((1 <<< (127 - key)) - 1) }

/-- `CachedPage::invalidate_full`. -/
def CachedPage.invalidate_full (p : CachedPage) : CachedPage := { p with valid := 0 }

/-- `CachedPage::fill_cache`, purified: the source memoizes each computed node
into `cache`/`valid`; the memo writes only ever store the value that pure
recomputation yields, so they are dropped here.  The fuel bounds the recursion
depth (the source recursion is bounded by reaching a leaf `g ≥ 64`; only the
`g = 0` self-loop, on which the source does not terminate, exhausts it). -/
def CachedPage.fillCacheF (p : CachedPage) : Nat → Nat → List Nat
  | 0, _ => List.replicate 32 0
  | fuel + 1, g =>
    if p.is_valid g then p.cache g
    else if 64 ≤ g then keccak256 (dataSlice p.data ((g - 64) <<< 6) 64)
    else keccakConcat (p.fillCacheF fuel (g <<< 1)) (p.fillCacheF fuel ((g <<< 1) + 1))

/-- `fill_cache` entry point: depth of the page tree is at most 7. -/
def CachedPage.fill_cache (p : CachedPage) (g : Nat) : List Nat := p.fillCacheF 8 g

/-- `CachedPage::merkleize_subtree`: raw 32-byte words at `g ∈ [128, 256)`,
cached hashing below. -/
def CachedPage.merkleize_subtree (p : CachedPage) (g : Nat) : Except Err (List Nat) :=
  if 128 ≤ g ∧ g < 256 then .ok (dataSlice p.data ((g &&& 127) <<< 5) 32)
  else if 256 ≤ g then .error (.gindexTooDeep g)
  else .ok (p.fill_cache g)

/-- Cache-free specification of a page subtree digest (`g ∈ [1, 128)`):
leaves `g ∈ [64, 128)` hash 64 data bytes, inner nodes hash their children.
Used to state the validity-bitmap invariant. -/
def pageHashSpec (d : Nat → Nat) (g : Nat) : List Nat :=
  if g = 0 then List.replicate 32 0
  else if 64 ≤ g then keccak256 (dataSlice d ((g - 64) <<< 6) 64)
  else keccakConcat (pageHashSpec d (2 * g)) (pageHashSpec d (2 * g + 1))
termination_by 64 - g
decreasing_by
  · omega
  · omega

/-- The validity-bitmap invariant of a page: every valid cache entry holds the
digest that recomputation from `data` yields. -/
def CachedPage.WF (p : CachedPage) : Prop :=
  ∀ g, 1 ≤ g → g < 128 → p.is_valid g = true → p.cache g = pageHashSpec p.data g

/-! ## Memory (`memory.rs`) -/

/-- `Memory`: the overlay node map (gindex → optional digest; the map value
`none` is an invalidated entry) and the page map.  The `last_page` MRU lookup
cache is dropped (see the module comment). -/
structure Memory where
  nodes : Nat → Option (Option (List Nat))
  pages : Nat → Option CachedPage

/-- `Memory::default()`. -/
def Memory.new : Memory := { nodes := fun _ => none, pages := fun _ => none }

/-- The node-invalidation loop `while g > 0 { nodes.insert(g, None); g >>= 1 }`. -/
def insertNones (nodes : Nat → Option (Option (List Nat))) : Nat → Nat → Option (Option (List Nat))
  | 0 => nodes
  | g + 1 => insertNones (Function.update nodes (g + 1) (some none)) ((g + 1) >>> 1)
decreasing_by
  simp only [Nat.shiftRight_succ, Nat.shiftRight_zero]
  omega

/-- `Memory::invalidate`.  The source `panic!`s on a misaligned address; if the
page root cache bit was already invalid the overlay nodes are left untouched. -/
def Memory.invalidate (m : Memory) (address : Nat) : Except Err Memory :=
  if address &&& 0x3 ≠ 0 then .error (.unalignedInvalidate address)
  else
    match m.pages (address >>> 12) with
    | none => .ok m
    | some page =>
      let prev_valid := !page.is_valid 1
      match page.invalidate (address &&& 4095) with
      | .error e => .error e
      | .ok page2 =>
        let m2 : Memory := { m with pages := Function.update m.pages (address >>> 12) (some page2) }
        if prev_valid then .ok m2
        else .ok { m2 with nodes := insertNones m2.nodes (((1 <<< 32) ||| address) >>> 12) }

/-- `Memory::alloc_page`: insert a fresh page and invalidate the overlay branch
above it; returns the new memory together with the page handle. -/
def Memory.alloc_page (m : Memory) (page_index : Nat) : Memory × CachedPage :=
  let m2 : Memory := { m with pages := Function.update m.pages page_index (some CachedPage.new) }
  ({ m2 with nodes := insertNones m2.nodes ((1 <<< 20) ||| page_index) }, CachedPage.new)

/-- Write a byte list into a byte array at an offset. -/
def writeBytes (d : Nat → Nat) (off : Nat) (bs : List Nat) : Nat → Nat :=
  fun i => if off ≤ i ∧ i < off + bs.length then bs.getD (i - off) 0 else d i

/-- `Memory::set_memory`: bail on misalignment; invalidate (existing page) or
allocate-and-invalidate (absent page); copy the big-endian word into the page
through the handle the lookup/allocation produced. -/
def Memory.set_memory (m : Memory) (address value : Nat) : Except Err Memory :=
  if address &&& 0x3 ≠ 0 then .error (.unalignedAccess address)
  else
    let page_index := address >>> 12
    let page_address := address &&& 4095
    let prepared : Except Err (Memory × CachedPage) :=
      match m.pages page_index with
      | some _ =>
        match m.invalidate address with
        | .error e => .error e
        | .ok m2 =>
          -- the handle is shared with the map entry, which invalidate updated
          match m2.pages page_index with
          | some page => .ok (m2, page)
          | none => .error .sliceRangePanic
      | none =>
        let (m2, page) := m.alloc_page page_index
        -- `let _ = page.invalidate(page_address)`: the result is discarded
        let page2 := (page.invalidate page_address).toOption.getD page
        .ok ({ m2 with pages := Function.update m2.pages page_index (some page2) }, page2)
    match prepared with
    | .error e => .error e
    | .ok (m2, page) =>
      let page2 : CachedPage := { page with data := writeBytes page.data page_address (be4 value) }
      .ok { m2 with pages := Function.update m2.pages page_index (some page2) }

/-- `Memory::get_memory`: bail on misalignment; 0 for an absent page; otherwise
the big-endian word of the backing page. -/
def Memory.get_memory (m : Memory) (address : Nat) : Except Err Nat :=
  if address &&& 0x3 ≠ 0 then .error (.unalignedAccess address)
  else
    match m.pages (address >>> 12) with
    | some page => .ok (beWord (dataSlice page.data (address &&& 4095) 4))
    | none => .ok 0

/-- `Memory::merkleize_subtree`, purified like `fill_cache` (the overlay memo
writes store exactly the recomputed values and are dropped) and fueled: each
self-recursion happens at `bits ≤ 20` and increases `bits`, so fuel 28 is never
exhausted except on the `g = 0` self-loop, on which the source diverges
(`divergence` marks the exhaustion). -/
def Memory.merkleizeF (m : Memory) : Nat → Nat → Except Err (List Nat)
  | 0, _ => .error .divergence
  | fuel + 1, g =>
    let bits := bitlen g
    if 28 < bits then .error (.gindexTooDeep g)
    else if 20 < bits then
      let depth_into_page := bits - 1 - 20
      let page_index := (g >>> depth_into_page) &&& (2 ^ 20 - 1)
      match m.pages page_index with
      | none => .ok (zeroHashes (28 - bits))
      | some page =>
        page.merkleize_subtree ((1 <<< depth_into_page) ||| (g &&& ((1 <<< depth_into_page) - 1)))
    else if 21 < bits then .error (.intoPageNode g)
    else
      match m.nodes g with
      | some (some node) => .ok node
      | none => .ok (zeroHashes (28 - bits))
      | some none => do
        let left ← m.merkleizeF fuel (g <<< 1)
        let right ← m.merkleizeF fuel ((g <<< 1) ||| 1)
        pure (keccakConcat left right)

/-- `Memory::merkleize_subtree` entry point (fuel 28 covers the tree depth). -/
def Memory.merkleize_subtree (m : Memory) (g : Nat) : Except Err (List Nat) :=
  m.merkleizeF 28 g

/-- `Memory::merkle_root`. -/
def Memory.merkle_root (m : Memory) : Except Err (List Nat) :=
  m.merkleize_subtree 1

/-- `Memory::traverse_branch`: the word node at depth 27, then the sibling of
each step back up; the descent direction at depth `d` is bit `31 - d` of the
address. -/
def Memory.traverse_branch (m : Memory) (parent address depth : Nat) :
    Except Err (List (List Nat)) :=
  if depth = 27 then do
    let n ← m.merkleize_subtree parent
    pure [n]
  else if 27 < depth then .error .traversedTooDeep
  else do
    let child := parent <<< 1
    let sibling := child ||| 1
    let (child, sibling) :=
      if address &&& (1 <<< (31 - depth)) ≠ 0 then (sibling, child) else (child, sibling)
    let pr ← m.traverse_branch child address (depth + 1)
    let sibNode ← m.merkleize_subtree sibling
    pure (pr ++ [sibNode])
termination_by 28 - depth
decreasing_by omega

/-- `Memory::merkle_proof`, kept as the 28-entry vector of 32-byte nodes (the
source then flattens it into `[u8; 28 * 32]`, a pure reshape that succeeds
exactly when there are 28 entries of 32 bytes). -/
def Memory.merkle_proof (m : Memory) (address : Nat) : Except Err (List (List Nat)) :=
  m.traverse_branch 1 address 0

/-- The raw 32-byte word of the tree leaf `g` (`bitlen g = 28`): read from the
backing page, zero when the page is absent. -/
def Memory.wordAt (m : Memory) (g : Nat) : List Nat :=
  match m.pages ((g >>> 7) &&& (2 ^ 20 - 1)) with
  | none => List.replicate 32 0
  | some p => dataSlice p.data ((g &&& 127) <<< 5) 32

/-- Cache-free specification of a memory subtree digest: words at `bits = 28`,
keccak of the two children above.  Used to state the overlay invariant. -/
def Memory.subtreeHash (m : Memory) (g : Nat) : List Nat :=
  if g = 0 then List.replicate 32 0
  else if 28 ≤ bitlen g then m.wordAt g
  else keccakConcat (m.subtreeHash (2 * g)) (m.subtreeHash (2 * g + 1))
termination_by 28 - bitlen g
decreasing_by
  · have h2 : bitlen (2 * g) = bitlen g + 1 := by
      obtain ⟨k, rfl⟩ := Nat.exists_eq_succ_of_ne_zero (by assumption)
      have he : 2 * (k + 1) = (2 * k + 1) + 1 := by omega
      rw [he, bitlen]
      congr 2
      omega
    omega
  · have h2 : bitlen (2 * g + 1) = bitlen g + 1 := by
      rw [bitlen]
      congr 2
      omega
    omega

/-- The documented invariants of a `Memory` value: every cached overlay digest
(at node depth) is the recomputed digest of its subtree; an *absent* overlay
entry (at node depth) means no data lies below, so the subtree digest is the
zero hash of its level; every page's cache satisfies the page invariant; and a
page whose root cache entry is invalid has its whole overlay ancestor branch
invalidated (the `prev_valid` early return in `Memory::invalidate` relies on
exactly this). -/
def Memory.WF (m : Memory) : Prop :=
  (∀ g h, 1 ≤ g → bitlen g ≤ 20 → m.nodes g = some (some h) → h = m.subtreeHash g) ∧
  (∀ g, 1 ≤ g → bitlen g ≤ 20 → m.nodes g = none →
    m.subtreeHash g = zeroHashes (28 - bitlen g)) ∧
  (∀ pi p, m.pages pi = some p → p.WF) ∧
  (∀ pi p, pi < 2 ^ 20 → m.pages pi = some p → p.is_valid 1 = false →
    ∀ j, 1 ≤ j → j ≤ 20 → m.nodes ((2 ^ 20 + pi) >>> (21 - j)) = some none)

/-- Fold a merkle proof from the leaf up: each sibling combines on the left or
right according to the next path bit (least significant first). -/
def foldProof (node : List Nat) (sibs : List (List Nat)) (path : Nat) : List Nat :=
  match sibs with
  | [] => node
  | s :: rest =>
    foldProof (if path % 2 = 1 then keccakConcat s node else keccakConcat node s) rest (path / 2)

/-! ## The MIPS thread state (`state.rs`) and instrumented machine
(`instrumented.rs`) -/

/-- `State`: the emulated MIPS thread context. -/
structure State where
  memory : Memory
  preimage_key : List Nat
  preimage_offset : Nat
  pc : Nat
  next_pc : Nat
  lo : Nat
  hi : Nat
  heap : Nat
  exit_code : Nat
  exited : Bool
  step : Nat
  registers : Nat → Nat
  last_hint : List Nat

/-- `State::default()`. -/
def State.new : State :=
  { memory := Memory.new, preimage_key := List.replicate 32 0, preimage_offset := 0,
    pc := 0, next_pc := 0, lo := 0, hi := 0, heap := 0, exit_code := 0, exited := false,
    step := 0, registers := fun _ => 0, last_hint := [] }

/-- `InstrumentedState` minus the generic writers: stdout/stderr are byte
buffers here. -/
structure InstState where
  state : State
  std_out : List Nat
  std_err : List Nat
  last_mem_access : Nat
  mem_proof_enabled : Bool
  mem_proof : List (List Nat)
  last_preimage : List Nat
  last_preimage_key : List Nat
  last_preimage_offset : Nat

/-- `InstrumentedState::new` over a given thread state. -/
def InstState.new (s : State) : InstState :=
  { state := s, std_out := [], std_err := [], last_mem_access := 0,
    mem_proof_enabled := false, mem_proof := List.replicate 28 (List.replicate 32 0),
    last_preimage := [], last_preimage_key := List.replicate 32 0, last_preimage_offset := 0 }

/-- The preimage-oracle capability: `get` returns the full preimage of a key,
`hint` lets the host prepare; `none` models a host failure, which the
interpreter surfaces as an error. -/
structure Oracle where
  get : List Nat → Option (List Nat)
  hint : List Nat → Option Unit

/-- `MIPS_EBADF`. -/
def MIPS_EBADF : Nat := 0x9

/-- `MIPS_EINVAL`. -/
def MIPS_EINVAL : Nat := 0x16

/-- `sign_extend` of `mips_vm.rs`, with Rust release-mode shift semantics
(shift amounts masked by 31, arithmetic wrapping).  Note that `is_signed`
tests the *whole* of `data >> (index - 1)`, not just bit `index - 1`. -/
def sign_extend (data index : Nat) : Nat :=
  let is_signed := shr32 data (sub32 index 1) ≠ 0
  let signed := shl32 (sub32 (shl32 1 (sub32 32 index)) 1) index
  let mask := sub32 (shl32 1 index) 1
  if is_signed then (data &&& mask) ||| signed else data &&& mask

/-- A byte of memory as `MemoryReader` delivers it: from the backing page, 0
when the page is absent. -/
def Memory.readByte (m : Memory) (addr : Nat) : Nat :=
  match m.pages ((addr % U32M) >>> 12) with
  | some p => p.data (addr % U32M &&& 4095)
  | none => 0

/-- `count` bytes starting at `address` as `io::copy` out of a `MemoryReader`
collects them (the source loops page chunk by page chunk; this is the
flattened result: one byte per address, in order). -/
def Memory.readBytes (m : Memory) (address count : Nat) : List Nat :=
  (List.range count).map fun i => m.readByte (address + i)

/-- The hint-consuming loop of the `Fd::HintWrite` syscall arm, exactly as the
source runs it: while the buffer holds at least 4 bytes, decode the big-endian
length `n` of the first frame and *deliver only when `n ≥ len - 4`*; the
delivered frame is `buffer[4 .. 4+n]`, which is out of range (a Rust slice
panic, modelled as `none`) whenever `n > len - 4`.  Returns the delivered
frames in order and the remaining buffer.  Structured on fuel so that it
evaluates; each delivering iteration consumes at least 4 bytes, so
`fuel = buffer length` suffices. -/
def processHintsCodeF : Nat → List Nat → Option (List (List Nat) × List Nat)
  | 0, buf => some ([], buf)
  | fuel + 1, buf =>
    if 4 ≤ buf.length then
      let hint_len := beWord (buf.take 4)
      if buf.length - 4 ≤ hint_len then
        if 4 + hint_len ≤ buf.length then
          match processHintsCodeF fuel (buf.drop (4 + hint_len)) with
          | some (frames, rest) => some (((buf.drop 4).take hint_len) :: frames, rest)
          | none => none
        else none
      else some ([], buf)
    else some ([], buf)

/-- Entry point of the hint-consuming loop as implemented. -/
def processHintsCode (buf : List Nat) : Option (List (List Nat) × List Nat) :=
  processHintsCodeF buf.length buf

/-- Modelled from the spec (§4.3.2, fd 4): "while the buffer holds at least 4
bytes AND those 4 bytes encode a length `n ≤ len(buffer) - 4`, deliver the
framed hint `buffer[4..4+n]` to the hint sink and shrink the buffer; repeat".
This is the intended refinement target for `processHintsCode`. -/
def processHintsSpecF : Nat → List Nat → List (List Nat) × List Nat
  | 0, buf => ([], buf)
  | fuel + 1, buf =>
    if 4 ≤ buf.length ∧ beWord (buf.take 4) ≤ buf.length - 4 then
      let n := beWord (buf.take 4)
      let (frames, rest) := processHintsSpecF fuel (buf.drop (4 + n))
      (((buf.drop 4).take n) :: frames, rest)
    else ([], buf)

/-- Entry point of the specified hint-consuming loop. -/
def processHintsSpec (buf : List Nat) : List (List Nat) × List Nat :=
  processHintsSpecF buf.length buf

/-- Deliver a list of hint frames to the oracle in order; a failing `hint`
call surfaces as an error. -/
def deliverHints (o : Oracle) : List (List Nat) → Except Err Unit
  | [] => .ok ()
  | f :: rest =>
    match o.hint f with
    | none => .error .oracleFailure
    | some _ => deliverHints o rest

/-- `InstrumentedState::read_preimage`: fetch (and length-prefix) the preimage
on a key change, remember the offset, and read up to 32 bytes starting at
`offset`.  Slicing `last_preimage[offset..]` with `offset > len` is a Rust
panic. -/
def readPreimage (i : InstState) (o : Oracle) (key : List Nat) (offset : Nat) :
    Except Err (InstState × List Nat × Nat) :=
  let fetched : Except Err InstState :=
    if key ≠ i.last_preimage_key then
      match o.get key with
      | none => .error .oracleFailure
      | some data =>
        .ok { i with last_preimage_key := key, last_preimage := be8 data.length ++ data }
    else .ok i
  match fetched with
  | .error e => .error e
  | .ok i2 =>
    let i3 : InstState := { i2 with last_preimage_offset := offset }
    if i3.last_preimage.length < offset then .error .sliceRangePanic
    else
      let data_len := min 32 (i3.last_preimage.length - offset)
      let data := ((i3.last_preimage.drop offset).take data_len) ++
        List.replicate (32 - data_len) 0
      .ok (i3, data, data_len)

/-- `InstrumentedState::track_mem_access`. -/
def trackMemAccess (i : InstState) (effective_address : Nat) : Except Err InstState :=
  if i.mem_proof_enabled && i.last_mem_access != effective_address then
    if i.last_mem_access ≠ U32M - 1 then
      .error (.memAccessConflict i.last_mem_access effective_address)
    else
      match i.state.memory.merkle_proof effective_address with
      | .error e => .error e
      | .ok pr => .ok { i with last_mem_access := effective_address, mem_proof := pr }
  else .ok i

/-- Update one register of a state (`registers[r] = v`). -/
def State.setReg (s : State) (r v : Nat) : State :=
  { s with registers := Function.update s.registers r v }

/-- `handle_jump`. -/
def handleJump (i : InstState) (link_reg dest : Nat) : Except Err InstState :=
  if i.state.next_pc ≠ wrap32 (i.state.pc + 4) then
    .error (.unexpectedJumpInDelaySlot i.state.pc)
  else
    let prev_pc := i.state.pc
    let s := { i.state with pc := i.state.next_pc, next_pc := dest }
    let s := if link_reg ≠ 0 then s.setReg link_reg (wrap32 (prev_pc + 8)) else s
    .ok { i with state := s }

/-- `handle_rd`. -/
def handleRd (i : InstState) (store_reg val : Nat) (conditional : Bool) : Except Err InstState :=
  if 32 ≤ store_reg then .error (.invalidRegisterIndex store_reg)
  else
    let s := if store_reg ≠ 0 ∧ conditional then i.state.setReg store_reg val else i.state
    let s := { s with pc := s.next_pc, next_pc := wrap32 (s.next_pc + 4) }
    .ok { i with state := s }

/-- `handle_branch`. -/
def handleBranch (i : InstState) (opcode instruction rt_reg rs : Nat) : Except Err InstState :=
  if i.state.next_pc ≠ wrap32 (i.state.pc + 4) then
    .error (.unexpectedBranchInDelaySlot i.state.pc)
  else
    let should_branch :=
      if opcode = 4 ∨ opcode = 5 then
        let rt := i.state.registers rt_reg
        (rs = rt ∧ opcode = 4) ∨ (rs ≠ rt ∧ opcode = 5)
      else if opcode = 6 then toInt32 rs ≤ 0
      else if opcode = 7 then 0 < toInt32 rs
      else if opcode = 1 then
        let rtv := (instruction >>> 16) &&& 0x1F
        if rtv = 0 then toInt32 rs < 0
        else if rtv = 1 then 0 ≤ toInt32 rs
        else False
      else False
    let prev_pc := i.state.pc
    let s := { i.state with pc := i.state.next_pc }
    let s :=
      if should_branch then
        { s with next_pc := wrap32 (prev_pc + 4 + shl32 (sign_extend (instruction &&& 0xFFFF) 16) 2) }
      else { s with next_pc := wrap32 (s.next_pc + 4) }
    .ok { i with state := s }

/-- The `clz`/`clo` counting loop (`while rs & 0x8000_0000 != 0`), fueled by
the 32-bit width. -/
def clLoop : Nat → Nat → Nat
  | 0, _ => 0
  | fuel + 1, rs => if rs &&& 0x80000000 ≠ 0 then clLoop fuel ((rs <<< 1) % U32M) + 1 else 0

/-- `handle_hi_lo`.  The `div`/`divu` arms perform native division: a zero
divisor — and `i32::MIN / -1` for `div` — is a Rust panic, not an error
`Result`. -/
def handleHiLo (i : InstState) (fn rs rt store_reg : Nat) : Except Err InstState :=
  let computed : Except Err (State × Nat) :=
    if fn = 0x10 then .ok (i.state, i.state.hi)
    else if fn = 0x11 then .ok ({ i.state with hi := rs }, 0)
    else if fn = 0x12 then .ok (i.state, i.state.lo)
    else if fn = 0x13 then .ok ({ i.state with lo := rs }, 0)
    else if fn = 0x18 then
      let acc := (((toInt32 rs * toInt32 rt) % (U64M : Int)).toNat) % U64M
      .ok ({ i.state with hi := acc >>> 32, lo := acc % U32M }, 0)
    else if fn = 0x19 then
      let acc := (rs % U32M) * (rt % U32M)
      .ok ({ i.state with hi := (acc % U64M) >>> 32, lo := acc % U32M }, 0)
    else if fn = 0x1a then
      if rt % U32M = 0 then .error .divideByZeroPanic
      else if rs % U32M = 0x80000000 ∧ rt % U32M = 0xFFFFFFFF then .error .divOverflowPanic
      else .ok ({ i.state with hi := ofInt32 (Int.tmod (toInt32 rs) (toInt32 rt)),
                               lo := ofInt32 (Int.tdiv (toInt32 rs) (toInt32 rt)) }, 0)
    else if fn = 0x1b then
      if rt % U32M = 0 then .error .divideByZeroPanic
      else .ok ({ i.state with hi := rs % U32M % (rt % U32M), lo := rs % U32M / (rt % U32M) }, 0)
    else .ok (i.state, 0)
  match computed with
  | .error e => .error e
  | .ok (s, val) =>
    let s := if store_reg ≠ 0 then s.setReg store_reg val else s
    let s := { s with pc := s.next_pc, next_pc := wrap32 (s.next_pc + 4) }
    .ok { i with state := s }

/-- The pure ALU of `execute` (`mips_vm.rs`), Rust release-mode semantics. -/
def execute (instruction rs rt mem : Nat) : Except Err Nat :=
  let opcode := instruction >>> 26
  if opcode = 0 ∨ (8 ≤ opcode ∧ opcode < 0xF) then
    let fn :=
      if opcode = 8 then 0x20
      else if opcode = 9 then 0x21
      else if opcode = 0xA then 0x2A
      else if opcode = 0xB then 0x2B
      else if opcode = 0xC then 0x24
      else if opcode = 0xD then 0x25
      else if opcode = 0xE then 0x26
      else instruction &&& 0x3F
    if fn = 0 then .ok (shl32 rt ((instruction >>> 6) &&& 0x1F))
    else if fn = 2 then .ok (shr32 rt ((instruction >>> 6) &&& 0x1F))
    else if fn = 3 then
      let shamt := (instruction >>> 6) &&& 0x1F
      .ok (sign_extend (shr32 rt shamt) (32 - shamt))
    else if fn = 4 then .ok (shl32 rt (rs &&& 0x1F))
    else if fn = 6 then .ok (shr32 rt (rs &&& 0x1F))
    else if fn = 7 then .ok (sign_extend (shr32 rt rs) (sub32 32 rs))
    else if (8 ≤ fn ∧ fn ≤ 0x0c) ∨ (0x0f ≤ fn ∧ fn ≤ 0x13) ∨ (0x18 ≤ fn ∧ fn ≤ 0x1b) then .ok rs
    else if fn = 0x20 ∨ fn = 0x21 then .ok (wrap32 (rs + rt))
    else if fn = 0x22 ∨ fn = 0x23 then .ok (sub32 rs rt)
    else if fn = 0x24 then .ok (rs &&& rt)
    else if fn = 0x25 then .ok (rs ||| rt)
    else if fn = 0x26 then .ok (rs ^^^ rt)
    else if fn = 0x27 then .ok ((rs ||| rt) % U32M ^^^ (U32M - 1))
    else if fn = 0x2a then .ok (if toInt32 rs < toInt32 rt then 1 else 0)
    else if fn = 0x2b then .ok (if rs % U32M < rt % U32M then 1 else 0)
    else .error (.invalidFunctionCode fn)
  else if opcode = 0x1C then
    let fn := instruction &&& 0x3F
    if fn = 0x02 then .ok (ofInt32 (toInt32 rs * toInt32 rt))
    else if fn = 0x20 ∨ fn = 0x21 then
      let rsv := if fn = 0x20 then rs % U32M ^^^ (U32M - 1) else rs % U32M
      .ok (clLoop 32 rsv)
    else .error (.invalidFunctionCode fn)
  else if opcode = 0x0F then .ok (shl32 rt 16)
  else if opcode = 0x20 then .ok (sign_extend ((mem >>> (24 - ((rs &&& 0x3) <<< 3))) &&& 0xFF) 8)
  else if opcode = 0x21 then .ok (sign_extend ((mem >>> (16 - ((rs &&& 0x2) <<< 3))) &&& 0xFFFF) 16)
  else if opcode = 0x22 then
    let sl := (rs &&& 0x3) <<< 3
    let val := shl32 mem sl
    let mask := shl32 0xFFFFFFFF sl
    .ok ((rt &&& (mask ^^^ (U32M - 1))) ||| val)
  else if opcode = 0x23 then .ok mem
  else if opcode = 0x24 then .ok ((mem >>> (24 - ((rs &&& 0x3) <<< 3))) &&& 0xFF)
  else if opcode = 0x25 then .ok ((mem >>> (16 - ((rs &&& 0x2) <<< 3))) &&& 0xFFFF)
  else if opcode = 0x26 then
    let sr := 24 - ((rs &&& 0x3) <<< 3)
    let val := shr32 mem sr
    let mask := shr32 0xFFFFFFFF sr
    .ok ((rt &&& (mask ^^^ (U32M - 1))) ||| val)
  else if opcode = 0x28 then
    let sl := 24 - ((rs &&& 0x3) <<< 3)
    let val := shl32 (rt &&& 0xFF) sl
    let mask := 0xFFFFFFFF ^^^ shl32 0xFF sl
    .ok ((mem &&& mask) ||| val)
  else if opcode = 0x29 then
    let sl := 16 - ((rs &&& 0x2) <<< 3)
    let val := shl32 (rt &&& 0xFFFF) sl
    let mask := 0xFFFFFFFF ^^^ shl32 0xFFFF sl
    .ok ((mem &&& mask) ||| val)
  else if opcode = 0x2a then
    let sr := (rs &&& 0x3) <<< 3
    let val := shr32 rt sr
    let mask := shr32 0xFFFFFFFF sr
    .ok ((mem &&& (mask ^^^ (U32M - 1))) ||| val)
  else if opcode = 0x2b then .ok rt
  else if opcode = 0x2e then
    let sl := 24 - ((rs &&& 0x3) <<< 3)
    let val := shl32 rt sl
    let mask := shl32 0xFFFFFFFF sl
    .ok ((mem &&& (mask ^^^ (U32M - 1))) ||| val)
  else if opcode = 0x30 then .ok mem
  else if opcode = 0x38 then .ok rt
  else .error (.invalidOpcode opcode)

/-- Outcome of the syscall dispatch `match`: an `exit_group` returns without
touching `v0`/`v1`/PC; every other arm falls through to the common epilogue
with the computed `v0`/`v1`. -/
inductive SyscallOutcome where
  | exitEarly (i : InstState)
  | proceed (i : InstState) (v0 v1 : Nat)

/-- The `Syscall::Mmap` arm of `handle_syscall`. -/
def sysMmap (i : InstState) : Except Err SyscallOutcome :=
  let a0 := i.state.registers 4
  let a1 := i.state.registers 5
  let sz := a1
  let masked_size := sz &&& 4095
  let sz := if masked_size ≠ 0 then wrap32 (sz + (4096 - masked_size)) else sz
  if a0 = 0 then
    .ok (.proceed { i with state := { i.state with heap := wrap32 (i.state.heap + sz) } }
          i.state.heap 0)
  else .ok (.proceed i a0 0)

/-- The `Syscall::Read` arm of `handle_syscall` (fd 0 stdin, fd 5 preimage
read, fd 3 hint response ack). -/
def sysRead (i : InstState) (o : Oracle) : Except Err SyscallOutcome :=
  let a0 := i.state.registers 4
  let a1 := i.state.registers 5
  let a2 := i.state.registers 6
  let fd := a0 &&& 0xFF
  if fd = 0 then .ok (.proceed i 0 0)
  else if fd = 5 then
    let effective_address := a1 &&& 0xFFFFFFFC
    match trackMemAccess i effective_address with
    | .error e => .error e
    | .ok i1 =>
      match i1.state.memory.get_memory effective_address with
      | .error e => .error e
      | .ok memv =>
        match readPreimage i1 o i1.state.preimage_key i1.state.preimage_offset with
        | .error e => .error e
        | .ok (i2, data, data_len0) =>
          let alignment := a1 &&& 0x3
          let space := 4 - alignment
          let data_len1 := if space < data_len0 then space else data_len0
          let data_len := if a2 < data_len1 then a2 else data_len1
          let out_mem := (be4 memv).take alignment ++ data.take data_len ++
            (be4 memv).drop (alignment + data_len)
          match i2.state.memory.set_memory effective_address (beWord out_mem) with
          | .error e => .error e
          | .ok m2 =>
            let po2 := wrap32 (i2.state.preimage_offset + data_len)
            let s2 : State := { i2.state with memory := m2, preimage_offset := po2 }
            .ok (.proceed { i2 with state := s2 } data_len 0)
  else if fd = 3 then .ok (.proceed i a2 0)
  else .ok (.proceed i 0xFFFFFFFF MIPS_EBADF)

/-- The `Syscall::Write` arm of `handle_syscall` (fd 1/2 stdout/stderr, fd 4
hint write, fd 6 preimage-key write). -/
def sysWrite (i : InstState) (o : Oracle) : Except Err SyscallOutcome :=
  let a0 := i.state.registers 4
  let a1 := i.state.registers 5
  let a2 := i.state.registers 6
  let fd := a0 &&& 0xFF
  if fd = 1 ∨ fd = 2 then
    let out := i.state.memory.readBytes a1 a2
    let i2 := if fd = 1 then { i with std_out := i.std_out ++ out }
              else { i with std_err := i.std_err ++ out }
    .ok (.proceed i2 a2 0)
  else if fd = 4 then
    let hint_data := i.state.memory.readBytes a1 a2
    let buf := i.state.last_hint ++ hint_data
    match processHintsCode buf with
    | none => .error .sliceRangePanic
    | some (frames, rest) =>
      match deliverHints o frames with
      | .error e => .error e
      | .ok _ => .ok (.proceed { i with state := { i.state with last_hint := rest } } a2 0)
  else if fd = 6 then
    let effective_address := a1 &&& 0xFFFFFFFC
    match trackMemAccess i effective_address with
    | .error e => .error e
    | .ok i1 =>
      match i1.state.memory.get_memory effective_address with
      | .error e => .error e
      | .ok memv =>
        let key := i1.state.preimage_key
        let alignment := a1 &&& 0x3
        let space := 4 - alignment
        let a2c := if space < a2 then space else a2
        let key2 := key.drop a2c ++ ((be4 memv).drop alignment).take a2c
        let s2 : State := { i1.state with preimage_key := key2, preimage_offset := 0 }
        .ok (.proceed { i1 with state := s2 } a2c 0)
  else .ok (.proceed i 0xFFFFFFFF MIPS_EBADF)

/-- The `Syscall::Fcntl` arm of `handle_syscall`. -/
def sysFcntl (i : InstState) : Except Err SyscallOutcome :=
  let a0 := i.state.registers 4
  let a1 := i.state.registers 5
  if a1 = 3 then
    let fd := a0 &&& 0xFF
    if fd = 0 ∨ fd = 3 ∨ fd = 5 then .ok (.proceed i 0 0)
    else if fd = 1 ∨ fd = 2 ∨ fd = 4 ∨ fd = 6 then .ok (.proceed i 1 0)
    else .ok (.proceed i 0xFFFFFFFF MIPS_EBADF)
  else .ok (.proceed i 0xFFFFFFFF MIPS_EINVAL)

/-- The body of `handle_syscall` before the common register write-back: the
`Syscall::try_from(register 2)` dispatch over the recognised numbers, split
into one definition per arm. -/
def syscallDispatch (i : InstState) (o : Oracle) : Except Err SyscallOutcome :=
  let n := i.state.registers 2
  if n = 4090 then sysMmap i
  else if n = 4045 then .ok (.proceed i 0x40000000 0)
  else if n = 4120 then .ok (.proceed i 1 0)
  else if n = 4246 then
    .ok (.exitEarly { i with state := { i.state with exited := true, exit_code := (i.state.registers 4) &&& 0xFF } })
  else if n = 4003 then sysRead i o
  else if n = 4004 then sysWrite i o
  else if n = 4055 then sysFcntl i
  else .ok (.proceed i 0 0)

/-- `handle_syscall`: dispatch, then write `v0 → r2`, `v1 → r7` and advance the
PC (skipped by `exit_group`). -/
def handleSyscall (i : InstState) (o : Oracle) : Except Err InstState :=
  match syscallDispatch i o with
  | .error e => .error e
  | .ok (.exitEarly i2) => .ok i2
  | .ok (.proceed i2 v0 v1) =>
    let s := (i2.state.setReg 2 v0).setReg 7 v1
    .ok { i2 with state := { s with pc := s.next_pc, next_pc := wrap32 (s.next_pc + 4) } }

/-- `inner_step`: one fetch–decode–execute round of the interpreter. -/
def innerStep (i : InstState) (o : Oracle) : Except Err InstState :=
  if i.state.exited then .ok i
  else
    let i := { i with state := { i.state with step := i.state.step + 1 } }
    match i.state.memory.get_memory i.state.pc with
    | .error e => .error e
    | .ok instruction =>
      let opcode := instruction >>> 26
      if 2 ≤ opcode ∧ opcode ≤ 3 then
        let link_reg := if opcode = 3 then 31 else 0
        let target := (i.state.next_pc &&& 0xF0000000) ||| ((instruction &&& 0x03FFFFFF) <<< 2)
        handleJump i link_reg target
      else
        let rs0 := i.state.registers ((instruction >>> 21) &&& 0x1F)
        let rt_reg := (instruction >>> 16) &&& 0x1F
        let (rt, rd_reg) :=
          if opcode = 0 ∨ opcode = 0x1c then
            (i.state.registers rt_reg, (instruction >>> 11) &&& 0x1F)
          else if opcode < 20 then
            (if 0x0c ≤ opcode ∧ opcode ≤ 0x0e then instruction &&& 0xFFFF
             else sign_extend (instruction &&& 0xFFFF) 16, rt_reg)
          else if 0x28 ≤ opcode ∨ opcode = 0x22 ∨ opcode = 0x26 then
            (i.state.registers rt_reg, rt_reg)
          else (0, rt_reg)
        if (4 ≤ opcode ∧ opcode < 8) ∨ opcode = 1 then
          handleBranch i opcode instruction rt_reg rs0
        else
          let memPhase : Except Err (InstState × Nat × Nat × Nat × Nat) :=
            if 0x20 ≤ opcode then
              let rs1 := wrap32 (rs0 + sign_extend (instruction &&& 0xFFFF) 16)
              let address := rs1 &&& 0xFFFFFFFC
              match trackMemAccess i address with
              | .error e => .error e
              | .ok i2 =>
                match i2.state.memory.get_memory address with
                | .error e => .error e
                | .ok memv =>
                  if 0x28 ≤ opcode ∧ opcode ≠ 0x30 then .ok (i2, rs1, memv, address, 0)
                  else .ok (i2, rs1, memv, U32M - 1, rd_reg)
            else .ok (i, rs0, 0, U32M - 1, rd_reg)
          match memPhase with
          | .error e => .error e
          | .ok (i2, rs, memv, store_address, rd_reg2) =>
            match execute instruction rs rt memv with
            | .error e => .error e
            | .ok val =>
              let fn := instruction &&& 0x3F
              if opcode = 0 ∧ 8 ≤ fn ∧ fn < 0x1c ∧
                  (fn ≤ 9 ∨ fn = 0x0A ∨ fn = 0x0B ∨ fn = 0x0C ∨ (0x10 ≤ fn ∧ fn ≤ 0x1b)) then
                if fn ≤ 9 then handleJump i2 (if fn = 9 then rd_reg2 else 0) rs
                else if fn = 0x0A then handleRd i2 rd_reg2 val (rt == 0)
                else if fn = 0x0B then handleRd i2 rd_reg2 val (rt != 0)
                else if fn = 0x0C then handleSyscall i2 o
                else handleHiLo i2 fn rs rt rd_reg2
              else
                let i3 := if opcode = 0x38 ∧ rt_reg ≠ 0 then
                    { i2 with state := i2.state.setReg rt_reg 1 }
                  else i2
                let stored : Except Err InstState :=
                  if store_address ≠ U32M - 1 then
                    match trackMemAccess i3 store_address with
                    | .error e => .error e
                    | .ok i4 =>
                      match i4.state.memory.set_memory store_address val with
                      | .error e => .error e
                      | .ok m2 => .ok { i4 with state := { i4.state with memory := m2 } }
                  else .ok i3
                match stored with
                | .error e => .error e
                | .ok i5 => handleRd i5 rd_reg2 val true

/-! ## Witness codec (`witness.rs`, `state.rs`) -/

/-- `State::vm_status` as the status byte value (Valid 0 / Invalid 1 / Panic 2
/ Unfinished 3). -/
def vmStatus (exited : Bool) (exit_code : Nat) : Nat :=
  if !exited then 3
  else if exit_code = 0 then 0
  else if exit_code = 1 then 1
  else 2

/-- `State::encode_witness`: the 226-byte state commitment. -/
def State.encode_witness (s : State) : Except Err (List Nat) :=
  match s.memory.merkle_root with
  | .error e => .error e
  | .ok root =>
    .ok (root ++ s.preimage_key ++ be4 s.preimage_offset ++ be4 s.pc ++ be4 s.next_pc ++
      be4 s.lo ++ be4 s.hi ++ be4 s.heap ++ [s.exit_code] ++ [if s.exited then 1 else 0] ++
      be8 s.step ++ ((List.range 32).map fun r => be4 (s.registers r)).flatten)

/-- `StateWitnessHasher::state_hash`: keccak of the witness with byte 0
replaced by the VM status read back from witness bytes 88/89. -/
def stateHash (w : List Nat) : List Nat :=
  let hash := keccak256 w
  let offset := 32 * 2 + 4 * 6
  let exit_code := w.getD offset 0
  let exited := w.getD (offset + 1) 0 == 1
  vmStatus exited exit_code :: hash.drop 1

/-- `StepWitness`. -/
structure StepWitness where
  state : List Nat
  mem_proof : List (List Nat)
  preimage_key : Option (List Nat)
  preimage_value : Option (List Nat)
  preimage_offset : Option Nat
  deriving DecidableEq

/-- `InstrumentedState::step`: pre-step bookkeeping, optional pre-state
witness with the instruction-fetch proof, the inner step, then the data-access
proof and preimage fields. -/
def step (i : InstState) (proof : Bool) (o : Oracle) :
    Except Err (InstState × Option StepWitness) :=
  let i := { i with mem_proof_enabled := proof, last_mem_access := U32M - 1,
                    last_preimage_offset := U32M - 1 }
  let witPre : Except Err (Option StepWitness) :=
    if proof then
      match i.state.memory.merkle_proof i.state.pc with
      | .error e => .error e
      | .ok instruction_proof =>
        match i.state.encode_witness with
        | .error e => .error e
        | .ok sw =>
          let wit : StepWitness :=
            { state := sw,
              mem_proof := instruction_proof ++ List.replicate 28 (List.replicate 32 0),
              preimage_key := none, preimage_value := none, preimage_offset := none }
          .ok (some wit)
    else .ok none
  match witPre with
  | .error e => .error e
  | .ok w =>
    match innerStep i o with
    | .error e => .error e
    | .ok i2 =>
      let w2 :=
        if proof then
          w.map fun wit =>
            let withProof : StepWitness :=
              { wit with mem_proof := wit.mem_proof.take 28 ++ i2.mem_proof }
            if i2.last_preimage_offset ≠ U32M - 1 then
              { withProof with
                  preimage_key := some i2.last_preimage_key,
                  preimage_value := some i2.last_preimage,
                  preimage_offset := some i2.last_preimage_offset }
            else withProof
        else w
      .ok (i2, w2)

/-! ## Concrete example machines (shared by witnesses) -/

/-- An oracle whose host always fails. -/
def oracle0 : Oracle := { get := fun _ => none, hint := fun _ => none }

/-- An oracle that fails on the all-zero key but answers elsewhere: it agrees
with `oracle0` only at the all-zero key. -/
def oracleAlt : Oracle :=
  { get := fun k => if k = List.replicate 32 0 then none else some [], hint := fun _ => none }

/-- A memory whose page 0 holds the single big-endian word `w` at address 0. -/
def instMem (w : Nat) : Memory :=
  { nodes := fun _ => none,
    pages := fun pi =>
      if pi = 0 then some { CachedPage.new with data := fun i => (be4 w).getD i 0 } else none }

/-- An instrumented state about to execute the word `w` at `pc = 0`, with a
clean delay slot (`next_pc = 4`). -/
def instState0 (w : Nat) : InstState :=
  InstState.new { State.new with memory := instMem w, pc := 0, next_pc := 4 }

/-- Concrete 226-byte witness encoded from the initial thread state. -/
def c9wit : List Nat :=
  zeroHashes 27 ++ List.replicate 32 0 ++ be4 0 ++ be4 0 ++ be4 0 ++ be4 0 ++ be4 0 ++
    be4 0 ++ [0] ++ [0] ++ be8 0 ++ ((List.range 32).map fun r => be4 (State.new.registers r)).flatten

/-! ## General lemmas -/

theorem keccak256_length (msg : List Nat) : (keccak256 msg).length = 32 := by
  simp [keccak256]

theorem zeroHashes_length (n : Nat) : (zeroHashes n).length = 32 := by
  cases n with
  | zero => simp [zeroHashes]
  | succ k => simp [zeroHashes, keccakConcat, keccak256_length]

theorem bitlen_two_mul (g : Nat) (h : g ≠ 0) : bitlen (2 * g) = bitlen g + 1 := by
  obtain ⟨k, rfl⟩ := Nat.exists_eq_succ_of_ne_zero h
  have he : 2 * (k + 1) = (2 * k + 1) + 1 := by omega
  rw [he, bitlen]
  congr 2
  omega

theorem bitlen_two_mul_add_one (g : Nat) : bitlen (2 * g + 1) = bitlen g + 1 := by
  rw [bitlen]
  congr 2
  omega

theorem bitlen_le_iff (k : Nat) : ∀ g, bitlen g ≤ k ↔ g < 2 ^ k := by
  induction k with
  | zero =>
    intro g
    cases g with
    | zero => simp [bitlen]
    | succ n => simp [bitlen]
  | succ k ih =>
    intro g
    cases g with
    | zero => simp [bitlen, Nat.pos_pow_of_pos]
    | succ n =>
      rw [bitlen, Nat.add_le_add_iff_right, ih ((n + 1) / 2)]
      omega

theorem bitlen_pos (g : Nat) (h : g ≠ 0) : 1 ≤ bitlen g := by
  by_contra hc
  have h0 : bitlen g ≤ 0 := by omega
  rw [bitlen_le_iff] at h0
  omega

theorem lor_two_pow_mul_eq_add (i : Nat) : ∀ a k, a < 2 ^ i → a ||| 2 ^ i * k = a + 2 ^ i * k := by
  induction i with
  | zero =>
    intro a k h
    have : a = 0 := by omega
    simp [this]
  | succ i ih =>
    intro a k h
    have ha : a = Nat.bit (a.testBit 0) (a >>> 1) := (Nat.bit_testBit_zero_shiftRight_one a).symm
    have hb : 2 ^ (i + 1) * k = Nat.bit false (2 ^ i * k) := by
      simp [Nat.bit_val]
      ring
    rw [ha, hb, Nat.lor_bit]
    have h2 : a >>> 1 < 2 ^ i := by
      rw [Nat.shiftRight_one]
      omega
    have hih := ih (a >>> 1) k h2
    simp only [Nat.bit_val, hih, Bool.or_false]
    cases hB : a.testBit 0 <;> simp <;> ring

theorem sub32_of_le (a b : Nat) (hb : b ≤ a) (ha : a < U32M) : sub32 a b = a - b := by
  unfold sub32
  rw [Nat.mod_eq_of_lt ha, Nat.mod_eq_of_lt (lt_of_le_of_lt hb ha)]
  have h : a + (U32M - b) = (a - b) + U32M := by
    have : b ≤ U32M := by omega
    omega
  rw [h, Nat.add_mod_right, Nat.mod_eq_of_lt (by omega)]

theorem shl32_one (n : Nat) (hn : n < 32) : shl32 1 n = 2 ^ n := by
  unfold shl32
  rw [Nat.mod_eq_of_lt hn, Nat.shiftLeft_eq, one_mul, Nat.mod_eq_of_lt]
  have : (2 : Nat) ^ n ≤ 2 ^ 31 := Nat.pow_le_pow_right (by norm_num) (by omega)
  unfold U32M
  omega

theorem and_three_eq_mod (n : Nat) : n &&& 3 = n % 4 := Nat.and_pow_two_sub_one_eq_mod n 2

theorem and_4095_eq_mod (n : Nat) : n &&& 4095 = n % 4096 := Nat.and_pow_two_sub_one_eq_mod n 12

theorem and_127_eq_mod (n : Nat) : n &&& 127 = n % 128 := Nat.and_pow_two_sub_one_eq_mod n 7

theorem and_pkm_eq_mod (n : Nat) : n &&& (2 ^ 20 - 1) = n % 2 ^ 20 :=
  Nat.and_pow_two_sub_one_eq_mod n 20


theorem insertNones_lookup (g : Nat) :
    ∀ nodes k, insertNones nodes g k = nodes k ∨ insertNones nodes g k = some none := by
  induction g using Nat.strong_induction_on with
  | _ g ih =>
    cases g with
    | zero =>
      intro nodes k
      left
      rw [insertNones]
    | succ n =>
      intro nodes k
      rw [insertNones]
      have hlt : (n + 1) >>> 1 < n + 1 := by
        rw [Nat.shiftRight_one]
        omega
      rcases ih ((n + 1) >>> 1) hlt (Function.update nodes (n + 1) (some none)) k with h | h
      · by_cases hk : k = n + 1
        · subst hk
          rw [h, Function.update_same]
          right
          rfl
        · rw [h, Function.update_noteq hk]
          left
          rfl
      · right
        exact h

theorem and_two_pow_eq_iff (x j : Nat) : (x &&& 2 ^ j = 2 ^ j) ↔ x.testBit j = true := by
  rw [Nat.and_two_pow]
  cases h : x.testBit j
  · simp only [Bool.toNat_false, Nat.zero_mul]
    have hp : (0 : Nat) < 2 ^ j := Nat.pos_pow_of_pos _ (by norm_num)
    constructor
    · intro hc
      omega
    · intro hc
      cases hc
  · simp

theorem is_valid_mono_of_and (p q : CachedPage) (c k : Nat) (hv : q.valid = p.valid &&& c)
    (h : q.is_valid k = true) : p.is_valid k = true := by
  unfold CachedPage.is_valid at h ⊢
  rw [beq_iff_eq] at h ⊢
  rw [Nat.one_shiftLeft] at h ⊢
  rw [and_two_pow_eq_iff] at h ⊢
  rw [hv, Nat.testBit_and, Bool.and_eq_true] at h
  exact h.1

theorem page_invalidate_eq (p : CachedPage) (pa : Nat) (h : pa < 4096) :
    p.invalidate pa =
      .ok { p with valid := p.valid &&& ((1 <<< (127 - (((1 <<< 12) ||| pa) >>> 6))) - 1) } := by
  unfold CachedPage.invalidate
  rw [if_neg (by omega)]

theorem invalidate_present (m : Memory) (a : Nat) (p : CachedPage) (hal : a &&& 3 = 0)
    (hp : m.pages (a >>> 12) = some p) :
    ∃ m2, m.invalidate a = .ok m2 ∧
      m2.pages = Function.update m.pages (a >>> 12)
        (some { p with
          valid := p.valid &&& ((1 <<< (127 - (((1 <<< 12) ||| (a &&& 4095)) >>> 6))) - 1) }) ∧
      (∀ g hsh, m2.nodes g = some (some hsh) → m.nodes g = some (some hsh)) ∧
      (∀ g, m2.nodes g = none → m.nodes g = none) := by
  have hpa : a &&& 4095 < 4096 := by
    rw [and_4095_eq_mod]
    exact Nat.mod_lt _ (by norm_num)
  unfold Memory.invalidate
  rw [if_neg (by simp [hal]), hp]
  dsimp only
  rw [page_invalidate_eq p _ hpa]
  dsimp only
  by_cases hv : (!p.is_valid 1) = true
  · rw [if_pos hv]
    exact ⟨_, rfl, rfl, fun g hsh h => h, fun g h => h⟩
  · rw [if_neg hv]
    refine ⟨_, rfl, rfl, ?_, ?_⟩
    · intro g hsh h
      simp only at h
      rcases insertNones_lookup ((1 <<< 32 ||| a) >>> 12) m.nodes g with hh | hh
      · rw [hh] at h
        exact h
      · rw [hh] at h
        cases h
    · intro g h
      simp only at h
      rcases insertNones_lookup ((1 <<< 32 ||| a) >>> 12) m.nodes g with hh | hh
      · rw [hh] at h
        exact h
      · rw [hh] at h
        cases h

theorem set_memory_ok (m : Memory) (a v : Nat) (hal : a % 4 = 0) :
    ∃ m2 p2, m.set_memory a v = .ok m2 ∧
      m2.pages (a >>> 12) = some p2 ∧
      p2.data = writeBytes ((m.pages (a >>> 12)).getD CachedPage.new).data (a &&& 4095) (be4 v) ∧
      p2.cache = ((m.pages (a >>> 12)).getD CachedPage.new).cache ∧
      (∀ k, p2.is_valid k = true → ((m.pages (a >>> 12)).getD CachedPage.new).is_valid k = true) ∧
      (∀ pi, pi ≠ a >>> 12 → m2.pages pi = m.pages pi) ∧
      (∀ g hsh, m2.nodes g = some (some hsh) → m.nodes g = some (some hsh)) ∧
      (∀ g, m2.nodes g = none → m.nodes g = none) := by
  have hand : a &&& 3 = 0 := by
    rw [and_three_eq_mod]
    exact hal
  have hpa : a &&& 4095 < 4096 := by
    rw [and_4095_eq_mod]
    exact Nat.mod_lt _ (by norm_num)
  unfold Memory.set_memory
  rw [if_neg (by simp [hand])]
  dsimp only
  rcases hp : m.pages (a >>> 12) with _ | p
  · -- absent page: allocate, invalidate the fresh handle, write
    dsimp only
    unfold Memory.alloc_page
    dsimp only
    rw [page_invalidate_eq CachedPage.new _ hpa]
    dsimp only [Except.toOption, Option.getD]
    refine ⟨_, _, rfl, Function.update_same _ _ _, rfl, rfl, ?_, ?_, ?_, ?_⟩
    · intro k hk
      exact is_valid_mono_of_and CachedPage.new _ _ k rfl hk
    · intro pi hpi
      simp [Function.update_noteq hpi]
    · intro g hsh h
      simp only at h
      rcases insertNones_lookup (1 <<< 20 ||| a >>> 12) m.nodes g with hh | hh
      · rw [hh] at h
        exact h
      · rw [hh] at h
        cases h
    · intro g h
      simp only at h
      rcases insertNones_lookup (1 <<< 20 ||| a >>> 12) m.nodes g with hh | hh
      · rw [hh] at h
        exact h
      · rw [hh] at h
        cases h
  · -- present page: invalidate the handle, write through it
    dsimp only
    obtain ⟨mI, hI, hIpages, hInodesS, hInodesN⟩ := invalidate_present m a p hand hp
    rw [hI]
    dsimp only
    rw [hIpages, Function.update_same]
    dsimp only
    refine ⟨_, _, rfl, Function.update_same _ _ _, rfl, rfl, ?_, ?_, ?_, ?_⟩
    · intro k hk
      exact is_valid_mono_of_and p _ _ k rfl hk
    · intro pi hpi
      simp only [hIpages]
      rw [Function.update_noteq hpi, Function.update_noteq hpi]
    · intro g hsh h
      simp only at h
      exact hInodesS g hsh h
    · intro g h
      simp only at h
      exact hInodesN g h

theorem get_memory_aligned (m : Memory) (a : Nat) (hal : a % 4 = 0) :
    ∃ w, m.get_memory a = .ok w := by
  unfold Memory.get_memory
  rw [if_neg (by simp [and_three_eq_mod, hal])]
  cases m.pages (a >>> 12) <;> exact ⟨_, rfl⟩


theorem handleBranch_delay (j : InstState) (opcode instr rt_reg rs : Nat)
    (hne : j.state.next_pc ≠ wrap32 (j.state.pc + 4)) :
    handleBranch j opcode instr rt_reg rs = .error (.unexpectedBranchInDelaySlot j.state.pc) := by
  unfold handleBranch
  rw [if_pos hne]

theorem handleBranch_ok (j : InstState) (opcode instr rt_reg rs : Nat)
    (heq : j.state.next_pc = wrap32 (j.state.pc + 4)) :
    ∃ j2, handleBranch j opcode instr rt_reg rs = .ok j2 ∧ j2.state.pc = j.state.next_pc ∧
      (j2.state.next_pc = wrap32 (j.state.pc + 4 + shl32 (sign_extend (instr &&& 0xFFFF) 16) 2) ∨
       j2.state.next_pc = wrap32 (j.state.next_pc + 4)) := by
  unfold handleBranch
  rw [if_neg (not_not_intro heq)]
  dsimp only
  refine ⟨_, rfl, ?_, ?_⟩
  · dsimp only
    rw [apply_ite (fun s : State => s.pc)]
    dsimp only
    rw [ite_self]
  · dsimp only
    rw [apply_ite (fun s : State => s.next_pc)]
    dsimp only
    exact ite_eq_or_eq _ _ _

theorem handleJump_delay (j : InstState) (link_reg dest : Nat)
    (hne : j.state.next_pc ≠ wrap32 (j.state.pc + 4)) :
    handleJump j link_reg dest = .error (.unexpectedJumpInDelaySlot j.state.pc) := by
  unfold handleJump
  rw [if_pos hne]

theorem handleJump_ok (j : InstState) (link_reg dest : Nat)
    (heq : j.state.next_pc = wrap32 (j.state.pc + 4)) :
    ∃ j2, handleJump j link_reg dest = .ok j2 ∧ j2.state.pc = j.state.next_pc ∧
      j2.state.next_pc = dest := by
  unfold handleJump
  rw [if_neg (not_not_intro heq)]
  dsimp only
  split
  · exact ⟨_, rfl, rfl, rfl⟩
  · exact ⟨_, rfl, rfl, rfl⟩


theorem fillCacheF_length (p : CachedPage) (hc : ∀ g, (p.cache g).length = 32) :
    ∀ fuel g, (p.fillCacheF fuel g).length = 32 := by
  intro fuel
  induction fuel with
  | zero =>
    intro g
    simp [CachedPage.fillCacheF]
  | succ f ih =>
    intro g
    unfold CachedPage.fillCacheF
    split
    · exact hc g
    · split
      · exact keccak256_length _
      · exact keccak256_length _

theorem page_merkleize_length (p : CachedPage) (hc : ∀ g, (p.cache g).length = 32) (g : Nat) :
    ∀ r, p.merkleize_subtree g = .ok r → r.length = 32 := by
  intro r hr
  unfold CachedPage.merkleize_subtree at hr
  split at hr
  · cases hr
    simp [dataSlice]
  · split at hr
    · cases hr
    · cases hr
      exact fillCacheF_length p hc 8 g

theorem merkleizeF_length (m : Memory)
    (hnodes : ∀ g h, m.nodes g = some (some h) → h.length = 32)
    (hcache : ∀ pi p, m.pages pi = some p → ∀ g, (p.cache g).length = 32) :
    ∀ fuel g r, m.merkleizeF fuel g = .ok r → r.length = 32 := by
  intro fuel
  induction fuel with
  | zero =>
    intro g r hr
    unfold Memory.merkleizeF at hr
    cases hr
  | succ f ih =>
    intro g r hr
    unfold Memory.merkleizeF at hr
    dsimp only at hr
    split at hr
    · cases hr
    · split at hr
      · split at hr
        · cases hr
          exact zeroHashes_length _
        · exact page_merkleize_length _ (hcache _ _ (by assumption)) _ r hr
      · split at hr
        · cases hr
        · split at hr
          · cases hr
            exact hnodes _ _ (by assumption)
          · cases hr
            exact zeroHashes_length _
          · rcases hL : m.merkleizeF f (g <<< 1) with eL | rL <;> rw [hL] at hr
            · cases hr
            · rcases hR : m.merkleizeF f ((g <<< 1) ||| 1) with eR | rR <;> rw [hR] at hr
              · cases hr
              · cases hr
                exact keccak256_length _

theorem merkle_root_length (m : Memory)
    (hnodes : ∀ g h, m.nodes g = some (some h) → h.length = 32)
    (hcache : ∀ pi p, m.pages pi = some p → ∀ g, (p.cache g).length = 32)
    (r : List Nat) (hr : m.merkle_root = .ok r) : r.length = 32 :=
  merkleizeF_length m hnodes hcache 28 1 r hr

theorem getD_skip (l l' : List Nat) (n k d : Nat) (hl : l.length = n) :
    (l ++ l').getD (n + k) d = l'.getD k d := by
  rw [List.getD_append_right _ _ _ _ (by omega)]
  congr 1
  omega


theorem zeroHashes_succ (n : Nat) :
    zeroHashes (n + 1) = keccakConcat (zeroHashes n) (zeroHashes n) := rfl

theorem shiftLeft_one_eq (g : Nat) : g <<< 1 = 2 * g := by
  rw [Nat.shiftLeft_eq]
  ring

theorem two_mul_lor_one (g : Nat) : 2 * g ||| 1 = 2 * g + 1 := by
  have h := lor_two_pow_mul_eq_add 1 1 g (by norm_num)
  rw [Nat.lor_comm]
  simp only [pow_one] at h
  omega

theorem two_mul_mod (g k : Nat) : 2 * g % (2 * k) = 2 * (g % k) :=
  Nat.mul_mod_mul_left 2 g k

theorem two_mul_add_one_mod (g k : Nat) (hk : 0 < k) :
    (2 * g + 1) % (2 * k) = 2 * (g % k) + 1 := by
  have hd := Nat.div_add_mod g k
  have hm : g % k < k := Nat.mod_lt g hk
  have he : 2 * g + 1 = 2 * k * (g / k) + (2 * (g % k) + 1) := by
    have ha : 2 * k * (g / k) = 2 * (k * (g / k)) := by ring
    omega
  rw [he, Nat.mul_add_mod]
  exact Nat.mod_eq_of_lt (by omega)

theorem dataSlice_length (d : Nat → Nat) (off n : Nat) : (dataSlice d off n).length = n := by
  simp [dataSlice]

theorem dataSlice_split (d : Nat → Nat) (off m n : Nat) :
    dataSlice d off (m + n) = dataSlice d off m ++ dataSlice d (off + m) n := by
  unfold dataSlice
  rw [List.range_add, List.map_append, List.map_map]
  congr 1
  apply List.map_congr_left
  intro i _
  simp only [Function.comp_apply]
  congr 1
  ring

theorem dataSlice_zero_data (d : Nat → Nat) (h : ∀ i, d i = 0) (off n : Nat) :
    dataSlice d off n = List.replicate n 0 := by
  unfold dataSlice
  rw [List.eq_replicate_iff]
  constructor
  · simp
  · intro b hb
    rw [List.mem_map] at hb
    obtain ⟨i, -, hi⟩ := hb
    rw [← hi, h]

theorem dataSlice_congr (d1 d2 : Nat → Nat) (off n : Nat)
    (h : ∀ i, off ≤ i → i < off + n → d1 i = d2 i) :
    dataSlice d1 off n = dataSlice d2 off n := by
  unfold dataSlice
  apply List.map_congr_left
  intro i hi
  rw [List.mem_range] at hi
  exact h _ (by omega) (by omega)

theorem le_bitlen_iff (k g : Nat) : k + 1 ≤ bitlen g ↔ 2 ^ k ≤ g := by
  have h := bitlen_le_iff k g
  omega

theorem bitlen_eq_iff (k g : Nat) : bitlen g = k + 1 ↔ 2 ^ k ≤ g ∧ g < 2 ^ (k + 1) := by
  have h1 := bitlen_le_iff (k + 1) g
  have h2 := le_bitlen_iff k g
  omega

theorem two_mul_shiftRight_succ (g k : Nat) : (2 * g) >>> (k + 1) = g >>> k := by
  rw [show k + 1 = 1 + k by ring, Nat.shiftRight_add]
  congr 1
  rw [Nat.shiftRight_one]
  omega

theorem two_mul_add_one_shiftRight_succ (g k : Nat) : (2 * g + 1) >>> (k + 1) = g >>> k := by
  rw [show k + 1 = 1 + k by ring, Nat.shiftRight_add]
  congr 1
  rw [Nat.shiftRight_one]
  omega

theorem subtreeHash_word (m : Memory) (g : Nat) (h : 28 ≤ bitlen g) :
    m.subtreeHash g = m.wordAt g := by
  have h0 : g ≠ 0 := by
    intro h0
    subst h0
    simp [bitlen] at h
  rw [Memory.subtreeHash, if_neg h0, if_pos h]

theorem subtreeHash_node (m : Memory) (g : Nat) (h1 : 1 ≤ g) (h2 : bitlen g ≤ 27) :
    m.subtreeHash g = keccakConcat (m.subtreeHash (2 * g)) (m.subtreeHash (2 * g + 1)) := by
  rw [Memory.subtreeHash, if_neg (by omega), if_neg (by omega)]

theorem pageHashSpec_leaf (d : Nat → Nat) (g : Nat) (h : 64 ≤ g) :
    pageHashSpec d g = keccak256 (dataSlice d ((g - 64) <<< 6) 64) := by
  rw [pageHashSpec, if_neg (by omega), if_pos h]

theorem pageHashSpec_node (d : Nat → Nat) (g : Nat) (h1 : 1 ≤ g) (h2 : g < 64) :
    pageHashSpec d g = keccakConcat (pageHashSpec d (2 * g)) (pageHashSpec d (2 * g + 1)) := by
  rw [pageHashSpec, if_neg (by omega), if_neg (by omega)]

theorem fillCacheF_spec (p : CachedPage) (hWF : p.WF) :
    ∀ fuel g, 1 ≤ g → g < 128 → 128 ≤ 2 ^ fuel * g →
      p.fillCacheF fuel g = pageHashSpec p.data g := by
  intro fuel
  induction fuel with
  | zero =>
    intro g h1 h2 h3
    simp only [pow_zero, one_mul] at h3
    omega
  | succ f ih =>
    intro g h1 h2 h3
    rw [CachedPage.fillCacheF]
    by_cases hv : p.is_valid g = true
    · rw [if_pos hv]
      exact hWF g h1 h2 hv
    · rw [if_neg hv]
      by_cases h64 : 64 ≤ g
      · rw [if_pos h64, pageHashSpec_leaf p.data g h64]
      · rw [if_neg h64, shiftLeft_one_eq]
        have hf2 : 128 ≤ 2 ^ f * (2 * g) := by
          have he : 2 ^ f * (2 * g) = 2 ^ (f + 1) * g := by ring
          omega
        have hf3 : 128 ≤ 2 ^ f * (2 * g + 1) := by
          have := Nat.mul_le_mul_left (2 ^ f) (show 2 * g ≤ 2 * g + 1 by omega)
          omega
        rw [ih (2 * g) (by omega) (by omega) hf2,
          ih (2 * g + 1) (by omega) (by omega) hf3,
          pageHashSpec_node p.data g h1 (by omega)]

theorem pagenode_shiftRight (g k j : Nat) (h : k = j + 1) :
    (2 * g) >>> k = g >>> j ∧ (2 * g + 1) >>> k = g >>> j := by
  subst h
  exact ⟨two_mul_shiftRight_succ g j, two_mul_add_one_shiftRight_succ g j⟩

theorem subtreeHash_pageInner (m : Memory) (p : CachedPage) :
    ∀ j, j ≤ 6 → ∀ g, bitlen g = 27 - j →
      m.pages ((g >>> (6 - j)) % 2 ^ 20) = some p →
      m.subtreeHash g = pageHashSpec p.data (2 ^ (6 - j) + g % 2 ^ (6 - j)) := by
  intro j
  induction j with
  | zero =>
    intro _ g hbl hp
    simp only [Nat.sub_zero] at hbl hp ⊢
    have hg1 : 1 ≤ g := by
      have h26 : (2 : Nat) ^ 26 ≤ g := (le_bitlen_iff 26 g).1 (by omega)
      omega
    rw [subtreeHash_node m g hg1 (by omega)]
    have hb2 : bitlen (2 * g) = 28 := by
      rw [bitlen_two_mul g (by omega)]
      omega
    have hb3 : bitlen (2 * g + 1) = 28 := by
      rw [bitlen_two_mul_add_one]
      omega
    rw [subtreeHash_word m _ (by omega), subtreeHash_word m _ (by omega)]
    unfold Memory.wordAt
    rw [and_pkm_eq_mod, and_pkm_eq_mod, two_mul_shiftRight_succ g 6,
      two_mul_add_one_shiftRight_succ g 6, hp]
    dsimp only
    rw [pageHashSpec_leaf p.data _ (by omega)]
    unfold keccakConcat
    congr 1
    rw [and_127_eq_mod, and_127_eq_mod]
    have hm1 : 2 * g % 128 = 2 * (g % 64) := by
      have h := two_mul_mod g 64
      norm_num at h
      omega
    have hm2 : (2 * g + 1) % 128 = 2 * (g % 64) + 1 := by
      have h := two_mul_add_one_mod g 64 (by norm_num)
      norm_num at h
      omega
    have hsplit64 : dataSlice p.data ((2 ^ 6 + g % 2 ^ 6 - 64) <<< 6) 64 =
        dataSlice p.data ((2 ^ 6 + g % 2 ^ 6 - 64) <<< 6) 32 ++
        dataSlice p.data ((2 ^ 6 + g % 2 ^ 6 - 64) <<< 6 + 32) 32 :=
      dataSlice_split p.data _ 32 32
    rw [hm1, hm2, hsplit64]
    have he : (2 : Nat) ^ 6 + g % 2 ^ 6 - 64 = g % 64 := by norm_num
    congr 1
    · congr 1
      rw [he, Nat.shiftLeft_eq, Nat.shiftLeft_eq]
      ring
    · congr 1
      rw [he, Nat.shiftLeft_eq, Nat.shiftLeft_eq]
      ring
  | succ j ih =>
    intro hj g hbl hp
    have hg0 : g ≠ 0 := by
      intro h0
      subst h0
      simp [bitlen] at hbl
      omega
    rw [subtreeHash_node m g (by omega) (by omega)]
    have hd6 : 6 - j = (6 - (j + 1)) + 1 := by omega
    have hb2 : bitlen (2 * g) = 27 - j := by
      rw [bitlen_two_mul g hg0]
      omega
    have hb3 : bitlen (2 * g + 1) = 27 - j := by
      rw [bitlen_two_mul_add_one]
      omega
    obtain ⟨hs2, hs3⟩ := pagenode_shiftRight g (6 - j) (6 - (j + 1)) hd6
    have hp2 : m.pages ((2 * g) >>> (6 - j) % 2 ^ 20) = some p := by
      rw [hs2]
      exact hp
    have hp3 : m.pages ((2 * g + 1) >>> (6 - j) % 2 ^ 20) = some p := by
      rw [hs3]
      exact hp
    rw [ih (by omega) (2 * g) hb2 hp2, ih (by omega) (2 * g + 1) hb3 hp3]
    have hpos : (0 : Nat) < 2 ^ (6 - (j + 1)) := Nat.pos_pow_of_pos _ (by norm_num)
    have hq : (2 : Nat) ^ (6 - (j + 1)) + g % 2 ^ (6 - (j + 1)) < 64 := by
      have hmlt : g % 2 ^ (6 - (j + 1)) < 2 ^ (6 - (j + 1)) := Nat.mod_lt _ hpos
      have hle : (2 : Nat) ^ (6 - (j + 1)) ≤ 2 ^ 5 :=
        Nat.pow_le_pow_right (by norm_num) (by omega)
      norm_num at hle
      omega
    rw [pageHashSpec_node p.data _ (by omega) hq]
    have hsplit : (2 : Nat) ^ (6 - j) = 2 * 2 ^ (6 - (j + 1)) := by
      rw [hd6, pow_succ]
      ring
    have hm2 : (2 * g) % 2 ^ (6 - j) = 2 * (g % 2 ^ (6 - (j + 1))) := by
      rw [hsplit]
      exact two_mul_mod g _
    have hm3 : (2 * g + 1) % 2 ^ (6 - j) = 2 * (g % 2 ^ (6 - (j + 1))) + 1 := by
      rw [hsplit]
      exact two_mul_add_one_mod g _ hpos
    congr 1
    · congr 1
      rw [hm2, hsplit]
      ring
    · congr 1
      rw [hm3, hsplit]
      ring

theorem subtreeHash_zero (m : Memory) :
    ∀ j, j ≤ 27 → ∀ g, bitlen g = 28 - j →
      (∀ l, bitlen l = 28 → l >>> j = g → m.wordAt l = List.replicate 32 0) →
      m.subtreeHash g = zeroHashes j := by
  intro j
  induction j with
  | zero =>
    intro _ g hbl hz
    rw [subtreeHash_word m g (by omega)]
    exact hz g (by omega) rfl
  | succ j ih =>
    intro hj g hbl hz
    have hg0 : g ≠ 0 := by
      intro h0
      subst h0
      simp [bitlen] at hbl
      omega
    rw [subtreeHash_node m g (by omega) (by omega)]
    have hb2 : bitlen (2 * g) = 28 - j := by
      rw [bitlen_two_mul g hg0]
      omega
    have hb3 : bitlen (2 * g + 1) = 28 - j := by
      rw [bitlen_two_mul_add_one]
      omega
    have hz2 : ∀ l, bitlen l = 28 → l >>> j = 2 * g → m.wordAt l = List.replicate 32 0 := by
      intro l hl he
      refine hz l hl ?_
      rw [Nat.shiftRight_add, he, Nat.shiftRight_one]
      omega
    have hz3 : ∀ l, bitlen l = 28 → l >>> j = 2 * g + 1 → m.wordAt l = List.replicate 32 0 := by
      intro l hl he
      refine hz l hl ?_
      rw [Nat.shiftRight_add, he, Nat.shiftRight_one]
      omega
    rw [ih (by omega) (2 * g) hb2 hz2, ih (by omega) (2 * g + 1) hb3 hz3,
      zeroHashes_succ]

theorem subtreeHash_congr (m1 m2 : Memory) :
    ∀ j, j ≤ 27 → ∀ g, bitlen g = 28 - j →
      (∀ l, bitlen l = 28 → l >>> j = g → m1.wordAt l = m2.wordAt l) →
      m1.subtreeHash g = m2.subtreeHash g := by
  intro j
  induction j with
  | zero =>
    intro _ g hbl hw
    rw [subtreeHash_word m1 g (by omega), subtreeHash_word m2 g (by omega)]
    exact hw g (by omega) rfl
  | succ j ih =>
    intro hj g hbl hw
    have hg0 : g ≠ 0 := by
      intro h0
      subst h0
      simp [bitlen] at hbl
      omega
    rw [subtreeHash_node m1 g (by omega) (by omega),
      subtreeHash_node m2 g (by omega) (by omega)]
    have hb2 : bitlen (2 * g) = 28 - j := by
      rw [bitlen_two_mul g hg0]
      omega
    have hb3 : bitlen (2 * g + 1) = 28 - j := by
      rw [bitlen_two_mul_add_one]
      omega
    have hw2 : ∀ l, bitlen l = 28 → l >>> j = 2 * g → m1.wordAt l = m2.wordAt l := by
      intro l hl he
      refine hw l hl ?_
      rw [Nat.shiftRight_add, he, Nat.shiftRight_one]
      omega
    have hw3 : ∀ l, bitlen l = 28 → l >>> j = 2 * g + 1 → m1.wordAt l = m2.wordAt l := by
      intro l hl he
      refine hw l hl ?_
      rw [Nat.shiftRight_add, he, Nat.shiftRight_one]
      omega
    rw [ih (by omega) (2 * g) hb2 hw2, ih (by omega) (2 * g + 1) hb3 hw3]

theorem merkleizeF_WF (m : Memory) (hWF : m.WF) :
    ∀ fuel g, 1 ≤ g → bitlen g ≤ 28 → 28 - bitlen g < fuel →
      m.merkleizeF fuel g = .ok (m.subtreeHash g) := by
  obtain ⟨hN, hZ, hP, -⟩ := hWF
  intro fuel
  induction fuel with
  | zero =>
    intro g h1 h2 h3
    omega
  | succ fuel ih =>
    intro g h1 h2 h3
    unfold Memory.merkleizeF
    dsimp only
    rw [if_neg (by omega)]
    by_cases h20 : 20 < bitlen g
    · rw [if_pos h20]
      rcases hpg : m.pages ((g >>> (bitlen g - 1 - 20)) &&& (2 ^ 20 - 1)) with _ | page
      · dsimp only
        rw [subtreeHash_zero m (28 - bitlen g) (by omega) g (by omega) ?hz]
        case hz =>
          intro l hl he
          unfold Memory.wordAt
          have h7 : l >>> 7 = g >>> (bitlen g - 1 - 20) := by
            rw [show 7 = (28 - bitlen g) + (bitlen g - 1 - 20) by omega,
              Nat.shiftRight_add, he]
          rw [h7, hpg]
      · dsimp only
        unfold CachedPage.merkleize_subtree
        have hpos : (0 : Nat) < 2 ^ (bitlen g - 1 - 20) := Nat.pos_pow_of_pos _ (by norm_num)
        have h1s : (1 : Nat) <<< (bitlen g - 1 - 20) = 2 ^ (bitlen g - 1 - 20) :=
          Nat.one_shiftLeft _
        have hg9 : (1 <<< (bitlen g - 1 - 20)) ||| (g &&& ((1 <<< (bitlen g - 1 - 20)) - 1)) =
            2 ^ (bitlen g - 1 - 20) + g % 2 ^ (bitlen g - 1 - 20) := by
          rw [h1s, Nat.and_pow_two_sub_one_eq_mod g _, Nat.lor_comm]
          have hl := lor_two_pow_mul_eq_add (bitlen g - 1 - 20) (g % 2 ^ (bitlen g - 1 - 20)) 1
            (Nat.mod_lt g hpos)
          simp only [mul_one] at hl
          rw [hl]
          ring
        rw [hg9]
        have hmlt : g % 2 ^ (bitlen g - 1 - 20) < 2 ^ (bitlen g - 1 - 20) := Nat.mod_lt g hpos
        by_cases h28 : bitlen g = 28
        · have hdip : bitlen g - 1 - 20 = 7 := by omega
          rw [hdip] at hmlt ⊢
          rw [if_pos (by norm_num at hmlt ⊢; omega)]
          rw [subtreeHash_word m g (by omega)]
          unfold Memory.wordAt
          rw [hdip] at hpg
          rw [hpg]
          dsimp only
          congr 2
          rw [and_127_eq_mod, and_127_eq_mod]
          have h77 : g % 2 ^ 7 < 2 ^ 7 := hmlt
          norm_num at h77 ⊢
          try omega
        · have hdip6 : bitlen g - 1 - 20 ≤ 6 := by omega
          have hub : (2 : Nat) ^ (bitlen g - 1 - 20) ≤ 2 ^ 6 :=
            Nat.pow_le_pow_right (by norm_num) hdip6
          norm_num at hub
          rw [if_neg (by omega), if_neg (by omega)]
          unfold CachedPage.fill_cache
          rw [fillCacheF_spec page (hP _ _ hpg) 8 _ (by omega) (by omega) (by
            have h256 : (2 : Nat) ^ 8 * (2 ^ (bitlen g - 1 - 20) + g % 2 ^ (bitlen g - 1 - 20)) ≥
                2 ^ 8 * 1 := Nat.mul_le_mul_left _ (by omega)
            norm_num at h256 ⊢
            omega)]
          have happ := subtreeHash_pageInner m page (27 - bitlen g) (by omega) g (by omega) (by
            have hidx : 6 - (27 - bitlen g) = bitlen g - 1 - 20 := by omega
            rw [hidx, ← and_pkm_eq_mod]
            exact hpg)
          have hidx : 6 - (27 - bitlen g) = bitlen g - 1 - 20 := by omega
          rw [hidx] at happ
          rw [happ]
    · rw [if_neg h20, if_neg (by omega)]
      rcases hnd : m.nodes g with _ | (_ | node)
      · dsimp only
        rw [hZ g h1 (by omega) hnd]
      · dsimp only
        have hsl : g <<< 1 = 2 * g := shiftLeft_one_eq g
        have hbl2 : bitlen (2 * g) = bitlen g + 1 := bitlen_two_mul g (by omega)
        have hbl3 : bitlen (2 * g + 1) = bitlen g + 1 := bitlen_two_mul_add_one g
        have hL := ih (2 * g) (by omega) (by omega) (by omega)
        have hR := ih (2 * g + 1) (by omega) (by omega) (by omega)
        rw [hsl, two_mul_lor_one, hL, hR, subtreeHash_node m g h1 (by omega)]
        rfl
      · dsimp only
        rw [hN g node h1 (by omega) hnd]

theorem foldProof_concat (xs : List (List Nat)) :
    ∀ (n s : List Nat) (p : Nat),
      foldProof n (xs ++ [s]) p =
        if p >>> xs.length % 2 = 1 then keccakConcat s (foldProof n xs p)
        else keccakConcat (foldProof n xs p) s := by
  induction xs with
  | nil =>
    intro n s p
    simp only [List.nil_append, List.length_nil, Nat.shiftRight_zero, foldProof]
  | cons x xs ih =>
    intro n s p
    simp only [List.cons_append, List.length_cons, foldProof, List.append_eq]
    rw [ih]
    have hc : p >>> (xs.length + 1) = (p / 2) >>> xs.length := by
      rw [show xs.length + 1 = 1 + xs.length by ring, Nat.shiftRight_add, Nat.shiftRight_one]
    rw [hc]

theorem wordAt_length (m : Memory) (g : Nat) : (m.wordAt g).length = 32 := by
  unfold Memory.wordAt
  rcases hp : m.pages ((g >>> 7) &&& (2 ^ 20 - 1)) with _ | p
  · simp
  · simp [dataSlice_length]

theorem subtreeHash_length_aux (m : Memory) :
    ∀ j g, 28 - bitlen g ≤ j → (m.subtreeHash g).length = 32 := by
  intro j
  induction j with
  | zero =>
    intro g hg
    rw [subtreeHash_word m g (by omega)]
    exact wordAt_length m g
  | succ j ih =>
    intro g hg
    by_cases h0 : g = 0
    · subst h0
      rw [Memory.subtreeHash]
      simp
    by_cases h28 : 28 ≤ bitlen g
    · rw [subtreeHash_word m g h28]
      exact wordAt_length m g
    · rw [subtreeHash_node m g (by omega) (by omega)]
      unfold keccakConcat
      exact keccak256_length _

theorem subtreeHash_length (m : Memory) (g : Nat) : (m.subtreeHash g).length = 32 :=
  subtreeHash_length_aux m 28 g (by omega)

theorem traverse_branch_WF (m : Memory) (hWF : m.WF) (a : Nat) (ha : a < 2 ^ 32) :
    ∀ i d, d + i = 27 →
      ∃ pr, m.traverse_branch (2 ^ d + a >>> (32 - d)) a d = .ok pr ∧
        pr.length = 28 - d ∧
        (∀ x ∈ pr, x.length = 32) ∧
        pr.getD 0 [] = m.subtreeHash (2 ^ 27 + a >>> 5) ∧
        foldProof (m.subtreeHash (2 ^ 27 + a >>> 5)) (pr.drop 1) (a >>> 5) =
          m.subtreeHash (2 ^ d + a >>> (32 - d)) := by
  intro i
  induction i with
  | zero =>
    intro d hd
    have hd27 : d = 27 := by omega
    subst hd27
    simp only [show 32 - 27 = 5 from rfl]
    rw [Memory.traverse_branch, if_pos rfl]
    have hb : bitlen (2 ^ 27 + a >>> 5) = 28 := by
      rw [bitlen_eq_iff]
      omega
    have hm := merkleizeF_WF m hWF 28 (2 ^ 27 + a >>> 5) (by omega) (by omega) (by omega)
    refine ⟨[m.subtreeHash (2 ^ 27 + a >>> 5)], ?_, rfl, ?memb0, rfl, rfl⟩
    case memb0 =>
      intro x hx
      rw [List.mem_singleton] at hx
      subst hx
      exact subtreeHash_length m _
    unfold Memory.merkleize_subtree
    rw [hm]
    rfl
  | succ i ih =>
    intro d hd
    have hd26 : d ≤ 26 := by omega
    have hp2 : (2 : Nat) ^ (d + 1) = 2 * 2 ^ d := by ring
    have hdpos : (1 : Nat) ≤ 2 ^ d := Nat.one_le_two_pow
    have h31 : 32 - (d + 1) = 31 - d := by omega
    rw [Memory.traverse_branch, if_neg (by omega), if_neg (by omega)]
    dsimp only
    generalize hA : a >>> (31 - d) = A
    generalize hB : a >>> (32 - d) = B
    have hAB : A = 2 * B + A % 2 := by
      rw [← hA, ← hB, show 32 - d = (31 - d) + 1 by omega, Nat.shiftRight_add,
        Nat.shiftRight_one]
      omega
    have hAlt : A < 2 ^ (d + 1) := by
      rw [← hA, Nat.shiftRight_eq_div_pow]
      rw [Nat.div_lt_iff_lt_mul (Nat.pos_pow_of_pos _ (by norm_num))]
      calc a < 2 ^ 32 := ha
        _ ≤ 2 ^ (d + 1) * 2 ^ (31 - d) := by
          rw [← pow_add]
          exact Nat.pow_le_pow_right (by norm_num) (by omega)
    have hBlt : B < 2 ^ d := by omega
    have hbp : bitlen (2 ^ d + B) = d + 1 := by
      rw [bitlen_eq_iff]
      omega
    have hsl : (2 ^ d + B) <<< 1 = 2 * (2 ^ d + B) := shiftLeft_one_eq _
    have hbitIff : (a &&& (1 <<< (31 - d)) ≠ 0) ↔ A % 2 = 1 := by
      rw [← hA, Nat.one_shiftLeft, Nat.and_two_pow, Nat.shiftRight_eq_div_pow]
      rcases htb : a.testBit (31 - d) <;> rw [Nat.testBit_to_div_mod] at htb <;>
        simp at htb <;> simp [htb]
    obtain ⟨pr, hpr, hlen, hmem, hhead, hfold⟩ := ih (d + 1) (by omega)
    rw [h31, hA] at hpr hfold
    have hdl : (pr.drop 1).length = 26 - d := by
      rw [List.length_drop, hlen]
      omega
    have hsh : (a >>> 5) >>> (26 - d) = A := by
      rw [← hA, ← Nat.shiftRight_add]
      congr 1
      omega
    have hsibb : bitlen ((2 ^ d + B) <<< 1) = d + 2 := by
      rw [hsl, bitlen_two_mul _ (by omega)]
      omega
    have hsibb2 : bitlen ((2 ^ d + B) <<< 1 ||| 1) = d + 2 := by
      rw [hsl, two_mul_lor_one, bitlen_two_mul_add_one]
      omega
    by_cases hbit : a &&& (1 <<< (31 - d)) ≠ 0
    · rw [if_pos hbit]
      dsimp only
      have hodd : A % 2 = 1 := hbitIff.1 hbit
      have hch : (2 ^ d + B) <<< 1 ||| 1 = 2 ^ (d + 1) + A := by
        rw [hsl, two_mul_lor_one]
        omega
      have hsib := merkleizeF_WF m hWF 28 ((2 ^ d + B) <<< 1)
        (by rw [hsl]; omega) (by omega) (by omega)
      refine ⟨pr ++ [m.subtreeHash ((2 ^ d + B) <<< 1)], ?_, ?_, ?memb1, ?_, ?_⟩
      case memb1 =>
        intro x hx
        rcases List.mem_append.1 hx with h | h
        · exact hmem x h
        · rw [List.mem_singleton] at h
          subst h
          exact subtreeHash_length m _
      · rw [hch, hpr]
        unfold Memory.merkleize_subtree
        rw [hsib]
        rfl
      · rw [List.length_append, hlen]
        simp only [List.length_singleton]
        omega
      · rw [List.getD_append _ _ _ _ (by omega)]
        exact hhead
      · rw [List.drop_append_of_le_length (by omega), foldProof_concat, hdl, hsh,
          if_pos hodd, hfold]
        have hch2 : 2 ^ (d + 1) + A = 2 * (2 ^ d + B) + 1 := by omega
        rw [hch2, hsl]
        exact (subtreeHash_node m _ (by omega) (by omega)).symm
    · rw [if_neg hbit]
      dsimp only
      have heven : A % 2 = 0 := by
        rcases Nat.mod_two_eq_zero_or_one A with h | h
        · exact h
        · exact absurd (hbitIff.2 h) hbit
      have hch : (2 ^ d + B) <<< 1 = 2 ^ (d + 1) + A := by
        rw [hsl]
        omega
      have hsibeq : (2 ^ (d + 1) + A) ||| 1 = 2 * (2 ^ d + B) + 1 := by
        rw [← hch, hsl, two_mul_lor_one]
      have hsibb3 : bitlen (2 * (2 ^ d + B) + 1) = d + 2 := by
        rw [bitlen_two_mul_add_one]
        omega
      have hsib := merkleizeF_WF m hWF 28 (2 * (2 ^ d + B) + 1)
        (by omega) (by omega) (by omega)
      refine ⟨pr ++ [m.subtreeHash (2 * (2 ^ d + B) + 1)], ?_, ?_, ?memb2, ?_, ?_⟩
      case memb2 =>
        intro x hx
        rcases List.mem_append.1 hx with h | h
        · exact hmem x h
        · rw [List.mem_singleton] at h
          subst h
          exact subtreeHash_length m _
      · rw [hch, hsibeq, hpr]
        unfold Memory.merkleize_subtree
        rw [hsib]
        rfl
      · rw [List.length_append, hlen]
        simp only [List.length_singleton]
        omega
      · rw [List.getD_append _ _ _ _ (by omega)]
        exact hhead
      · rw [List.drop_append_of_le_length (by omega), foldProof_concat, hdl, hsh,
          if_neg (by omega), hfold]
        have hch2 : 2 ^ (d + 1) + A = 2 * (2 ^ d + B) := by omega
        rw [hch2]
        exact (subtreeHash_node m _ (by omega) (by omega)).symm

theorem memory_new_WF : Memory.new.WF := by
  refine ⟨?_, ?_, ?_, ?_⟩
  · intro g h h1 h2 hn
    simp [Memory.new] at hn
  · intro g h1 h2 hn
    have hb1 : 1 ≤ bitlen g := bitlen_pos g (by omega)
    exact subtreeHash_zero Memory.new (28 - bitlen g) (by omega) g (by omega)
      (fun l hl he => rfl)
  · intro pi p hp
    simp [Memory.new] at hp
  · intro pi p _ hp
    simp [Memory.new] at hp


theorem insertNones_mem (g0 : Nat) :
    ∀ nodes j, 1 ≤ g0 >>> j → insertNones nodes g0 (g0 >>> j) = some none := by
  induction g0 using Nat.strong_induction_on with
  | _ g0 ih =>
    cases g0 with
    | zero =>
      intro nodes j hj
      simp at hj
    | succ n =>
      intro nodes j hj
      rw [insertNones]
      have hlt : (n + 1) >>> 1 < n + 1 := by
        rw [Nat.shiftRight_one]
        omega
      cases j with
      | zero =>
        rw [Nat.shiftRight_zero] at hj ⊢
        rcases insertNones_lookup ((n + 1) >>> 1)
            (Function.update nodes (n + 1) (some none)) (n + 1) with h | h
        · rw [h, Function.update_same]
        · exact h
      | succ j =>
        have hs : (n + 1) >>> (j + 1) = ((n + 1) >>> 1) >>> j := by
          rw [show j + 1 = 1 + j by ring, Nat.shiftRight_add]
        rw [hs] at hj ⊢
        exact ih ((n + 1) >>> 1) hlt (Function.update nodes (n + 1) (some none)) j hj

theorem shiftRight_pos (n s : Nat) (h : 2 ^ s ≤ n) : 1 ≤ n >>> s := by
  rw [Nat.shiftRight_eq_div_pow]
  exact (Nat.one_le_div_iff (Nat.pos_pow_of_pos _ (by norm_num))).2 h

theorem be4_zero_getD (j : Nat) : (be4 0).getD j 0 = 0 := by
  rcases j with _ | _ | _ | _ | j <;> rfl

theorem dataSlice_writeBytes_of_disjoint (d : Nat → Nat) (off n o2 : Nat) (bs : List Nat)
    (h : o2 + bs.length ≤ off ∨ off + n ≤ o2) :
    dataSlice (writeBytes d o2 bs) off n = dataSlice d off n := by
  apply dataSlice_congr
  intro i hi1 hi2
  unfold writeBytes
  rw [if_neg (by omega)]

theorem valid_and_mask (pv K g : Nat) (hK : K ≤ 127) (hg : g ≤ 127)
    (h : (pv &&& ((1 <<< (127 - K)) - 1)) &&& (1 <<< (127 - g)) = 1 <<< (127 - g)) :
    pv &&& (1 <<< (127 - g)) = 1 <<< (127 - g) ∧ K < g := by
  rw [Nat.one_shiftLeft (127 - g)] at h ⊢
  rw [Nat.one_shiftLeft (127 - K)] at h
  rw [and_two_pow_eq_iff] at h ⊢
  rw [Nat.testBit_and, Bool.and_eq_true] at h
  obtain ⟨h1, h2⟩ := h
  rw [Nat.testBit_two_pow_sub_one] at h2
  simp only [decide_eq_true_eq] at h2
  exact ⟨h1, by omega⟩

theorem is_valid_zero (p : CachedPage) (h : p.valid = 0) (g : Nat) :
    p.is_valid g = false := by
  unfold CachedPage.is_valid
  rw [h, Nat.zero_and]
  rw [Nat.one_shiftLeft]
  simp [(Nat.pos_pow_of_pos (127 - g) (show 0 < 2 by norm_num)).ne]

theorem subtree_unchanged (m1 m2 : Memory) (pi : Nat)
    (hpages : ∀ q, q ≠ pi → m2.pages q = m1.pages q)
    (g : Nat) (hg1 : 1 ≤ g) (hg20 : bitlen g ≤ 20)
    (hnot : (2 ^ 20 + pi) >>> (21 - bitlen g) ≠ g) :
    m2.subtreeHash g = m1.subtreeHash g := by
  have hb1 : 1 ≤ bitlen g := bitlen_pos g (by omega)
  apply subtreeHash_congr m2 m1 (28 - bitlen g) (by omega) g (by omega)
  intro l hl he
  have hq : (l >>> 7) &&& (2 ^ 20 - 1) ≠ pi := by
    intro hc
    rw [and_pkm_eq_mod] at hc
    obtain ⟨hlb1, hlb2⟩ := (bitlen_eq_iff 27 l).1 (by omega)
    have hl7 : l >>> 7 = l / 128 := by
      rw [Nat.shiftRight_eq_div_pow]
    have hrange : 2 ^ 20 ≤ l >>> 7 ∧ l >>> 7 < 2 ^ 21 := by
      rw [hl7]
      norm_num at hlb1 hlb2 ⊢
      omega
    have hpn : 2 ^ 20 + pi = l >>> 7 := by
      rw [← hc]
      omega
    have hsh : (l >>> 7) >>> (21 - bitlen g) = g := by
      rw [← Nat.shiftRight_add, show 7 + (21 - bitlen g) = 28 - bitlen g by omega, he]
    rw [hpn] at hnot
    exact hnot hsh
  unfold Memory.wordAt
  rw [hpages _ hq]

theorem page_write_WF (p : CachedPage) (hWF : p.WF) (pa : Nat) (hpa : pa < 4096)
    (hal : pa % 4 = 0) (v : Nat) :
    CachedPage.WF (CachedPage.mk (writeBytes p.data pa (be4 v)) p.cache
      (p.valid &&& ((1 <<< (127 - (((1 <<< 12) ||| pa) >>> 6))) - 1))) := by
  have hKval : ((1 <<< 12) ||| pa) >>> 6 = 64 + pa / 64 := by
    have h1 : (1 : Nat) <<< 12 = 2 ^ 12 := Nat.one_shiftLeft _
    have h2 : (2 : Nat) ^ 12 ||| pa = pa + 2 ^ 12 := by
      rw [Nat.lor_comm]
      have h3 := lor_two_pow_mul_eq_add 12 pa 1 (by omega)
      simpa using h3
    rw [h1, h2, Nat.shiftRight_eq_div_pow]
    norm_num
    omega
  unfold CachedPage.WF
  intro g hg1 hg128 hv
  unfold CachedPage.is_valid at hv
  dsimp only at hv ⊢
  rw [beq_iff_eq, hKval] at hv
  obtain ⟨h1, hKg⟩ := valid_and_mask p.valid (64 + pa / 64) g (by omega) (by omega) hv
  have hvold : p.is_valid g = true := by
    unfold CachedPage.is_valid
    rw [beq_iff_eq]
    exact h1
  have hold := hWF g hg1 hg128 hvold
  rw [hold]
  have hg64 : 64 ≤ g := by omega
  rw [pageHashSpec_leaf p.data g hg64, pageHashSpec_leaf _ g hg64]
  congr 1
  rw [Nat.shiftLeft_eq]
  refine (dataSlice_writeBytes_of_disjoint p.data ((g - 64) * 2 ^ 6) 64 pa (be4 v) ?_).symm
  left
  have hlen : (be4 v).length = 4 := rfl
  rw [hlen]
  norm_num
  omega

theorem memory_WF_core (m : Memory) (hWF : m.WF) (pi : Nat) (hpilt : pi < 2 ^ 20)
    (N2 : Nat → Option (Option (List Nat))) (P2 : Nat → Option CachedPage)
    (hN2a : ∀ k, N2 k = m.nodes k ∨ N2 k = some none)
    (hN2anc : ∀ s, 1 ≤ s → s ≤ 20 → N2 ((2 ^ 20 + pi) >>> s) = some none)
    (pnew : CachedPage) (hP2pi : P2 pi = some pnew) (hpnewWF : pnew.WF)
    (hP2off : ∀ q, q ≠ pi → P2 q = m.pages q) :
    Memory.WF ⟨N2, P2⟩ := by
  obtain ⟨hW1, hW2, hW3, hW4⟩ := hWF
  have hcongr : ∀ g, 1 ≤ g → bitlen g ≤ 20 → (2 ^ 20 + pi) >>> (21 - bitlen g) ≠ g →
      Memory.subtreeHash ⟨N2, P2⟩ g = m.subtreeHash g := by
    intro g hg1 hg20 hnot
    exact subtree_unchanged m ⟨N2, P2⟩ pi (fun q hq => hP2off q hq) g hg1 hg20 hnot
  refine ⟨?_, ?_, ?_, ?_⟩
  · intro g h hg1 hg20 hsome
    dsimp only at hsome
    by_cases hanc : (2 ^ 20 + pi) >>> (21 - bitlen g) = g
    · exfalso
      have hbl1 : 1 ≤ bitlen g := bitlen_pos g (by omega)
      have hn := hN2anc (21 - bitlen g) (by omega) (by omega)
      rw [hanc] at hn
      rw [hn] at hsome
      cases hsome
    · rcases hN2a g with he | he
      · rw [he] at hsome
        exact (hW1 g h hg1 hg20 hsome).trans (hcongr g hg1 hg20 hanc).symm
      · rw [he] at hsome
        cases hsome
  · intro g hg1 hg20 hnone
    dsimp only at hnone
    by_cases hanc : (2 ^ 20 + pi) >>> (21 - bitlen g) = g
    · exfalso
      have hbl1 : 1 ≤ bitlen g := bitlen_pos g (by omega)
      have hn := hN2anc (21 - bitlen g) (by omega) (by omega)
      rw [hanc] at hn
      rw [hn] at hnone
      cases hnone
    · rcases hN2a g with he | he
      · rw [he] at hnone
        exact (hcongr g hg1 hg20 hanc).trans (hW2 g hg1 hg20 hnone)
      · rw [he] at hnone
        cases hnone
  · intro q p hq
    dsimp only at hq
    by_cases hqpi : q = pi
    · subst hqpi
      rw [hP2pi] at hq
      cases hq
      exact hpnewWF
    · rw [hP2off q hqpi] at hq
      exact hW3 q p hq
  · intro q p hqlt hq hval j hj1 hj20
    dsimp only at hq ⊢
    by_cases hqpi : q = pi
    · subst hqpi
      exact hN2anc (21 - j) (by omega) (by omega)
    · rw [hP2off q hqpi] at hq
      have hold := hW4 q p hqlt hq hval j hj1 hj20
      rcases hN2a ((2 ^ 20 + q) >>> (21 - j)) with he | he
      · rw [he, hold]
      · exact he

theorem set_memory_WF (m : Memory) (a v : Nat) (hWF : m.WF) (ha : a < 2 ^ 32)
    (hal : a % 4 = 0) :
    ∃ m2, m.set_memory a v = .ok m2 ∧ m2.WF ∧
      (∀ q, q ≠ a >>> 12 → m2.pages q = m.pages q) ∧
      (∃ p2, m2.pages (a >>> 12) = some p2 ∧
        p2.cache = ((m.pages (a >>> 12)).getD CachedPage.new).cache ∧
        p2.data = writeBytes ((m.pages (a >>> 12)).getD CachedPage.new).data
          (a &&& 4095) (be4 v)) := by
  have hand : a &&& 3 = 0 := by
    rw [and_three_eq_mod]
    exact hal
  have hpa : a &&& 4095 < 4096 := by
    rw [and_4095_eq_mod]
    exact Nat.mod_lt _ (by norm_num)
  have hpal : (a &&& 4095) % 4 = 0 := by
    rw [and_4095_eq_mod]
    omega
  have hpilt : a >>> 12 < 2 ^ 20 := by
    rw [Nat.shiftRight_eq_div_pow]
    norm_num
    omega
  have hpn1 : (1 : Nat) <<< 20 ||| (a >>> 12) = 2 ^ 20 + a >>> 12 := by
    rw [Nat.one_shiftLeft, Nat.lor_comm]
    have h := lor_two_pow_mul_eq_add 20 (a >>> 12) 1 hpilt
    simp only [mul_one] at h
    omega
  have hpn2 : ((1 : Nat) <<< 32 ||| a) >>> 12 = 2 ^ 20 + a >>> 12 := by
    rw [Nat.one_shiftLeft, Nat.lor_comm]
    have h := lor_two_pow_mul_eq_add 32 a 1 ha
    simp only [mul_one] at h
    rw [h, Nat.shiftRight_eq_div_pow, Nat.shiftRight_eq_div_pow]
    norm_num
    omega
  have hposT : ∀ s T, T = 2 ^ 20 + a >>> 12 → s ≤ 20 → 1 ≤ T >>> s := by
    intro s T hT hs
    subst hT
    have hps : (2 : Nat) ^ s ≤ 2 ^ 20 := Nat.pow_le_pow_right (by norm_num) hs
    exact shiftRight_pos _ s (by omega)
  unfold Memory.set_memory
  rw [if_neg (by simp [hand])]
  dsimp only
  rcases hp : m.pages (a >>> 12) with _ | p
  · dsimp only
    unfold Memory.alloc_page
    dsimp only
    rw [page_invalidate_eq CachedPage.new _ hpa]
    dsimp only [Except.toOption, Option.getD]
    refine ⟨_, rfl, ?_, ?_, ?_⟩
    · refine memory_WF_core m hWF (a >>> 12) hpilt _ _ ?_ ?_ _
        (Function.update_same _ _ _) ?_ ?_
      · intro k
        exact insertNones_lookup _ _ k
      · intro s hs1 hs20
        rw [← hpn1]
        exact insertNones_mem _ _ s (by rw [hpn1]; exact hposT s _ rfl hs20)
      · intro g hg1 hg128 hv
        rw [is_valid_zero _ (Nat.zero_and _) g] at hv
        cases hv
      · intro q hq
        rw [Function.update_noteq hq, Function.update_noteq hq, Function.update_noteq hq]
    · intro q hq
      dsimp only
      rw [Function.update_noteq hq, Function.update_noteq hq, Function.update_noteq hq]
    · refine ⟨_, Function.update_same _ _ _, ?_, ?_⟩
      · rfl
      · rfl
  · dsimp only
    unfold Memory.invalidate
    rw [if_neg (by simp [hand]), hp]
    dsimp only
    rw [page_invalidate_eq p _ hpa]
    dsimp only
    have hpWF : p.WF := hWF.2.2.1 (a >>> 12) p hp
    by_cases hv1 : (!p.is_valid 1) = true
    · rw [if_pos hv1]
      dsimp only
      rw [Function.update_same]
      dsimp only
      refine ⟨_, rfl, ?_, ?_, ?_⟩
      · refine memory_WF_core m hWF (a >>> 12) hpilt _ _ ?_ ?_ _
          (Function.update_same _ _ _) ?_ ?_
        · intro k
          exact Or.inl rfl
        · intro s hs1 hs20
          have hfalse : p.is_valid 1 = false := by
            rcases hb : p.is_valid 1
            · rfl
            · rw [hb] at hv1
              cases hv1
          have hI4 := hWF.2.2.2 (a >>> 12) p hpilt hp hfalse (21 - s) (by omega) (by omega)
          rw [show 21 - (21 - s) = s from by omega] at hI4
          exact hI4
        · exact page_write_WF p hpWF (a &&& 4095) hpa hpal v
        · intro q hq
          rw [Function.update_noteq hq, Function.update_noteq hq]
      · intro q hq
        dsimp only
        rw [Function.update_noteq hq, Function.update_noteq hq]
      · refine ⟨_, Function.update_same _ _ _, ?_, ?_⟩
        · rfl
        · rfl
    · rw [if_neg hv1]
      dsimp only
      rw [Function.update_same]
      dsimp only
      refine ⟨_, rfl, ?_, ?_, ?_⟩
      · refine memory_WF_core m hWF (a >>> 12) hpilt _ _ ?_ ?_ _
          (Function.update_same _ _ _) ?_ ?_
        · intro k
          exact insertNones_lookup _ _ k
        · intro s hs1 hs20
          rw [← hpn2]
          exact insertNones_mem _ _ s (by rw [hpn2]; exact hposT s _ rfl hs20)
        · exact page_write_WF p hpWF (a &&& 4095) hpa hpal v
        · intro q hq
          rw [Function.update_noteq hq, Function.update_noteq hq]
      · intro q hq
        dsimp only
        rw [Function.update_noteq hq, Function.update_noteq hq]
      · refine ⟨_, Function.update_same _ _ _, ?_, ?_⟩
        · rfl
        · rfl

theorem merkle_root_WF (m : Memory) (hWF : m.WF) :
    m.merkle_root = .ok (m.subtreeHash 1) := by
  have hb1 : bitlen 1 = 1 := by simp [bitlen]
  unfold Memory.merkle_root Memory.merkleize_subtree
  exact merkleizeF_WF m hWF 28 1 (by norm_num) (by omega) (by omega)

theorem subtree_root_zero (m : Memory)
    (hz : ∀ pi p, m.pages pi = some p → ∀ i, p.data i = 0) :
    m.subtreeHash 1 = zeroHashes 27 := by
  have hb1 : bitlen 1 = 1 := by simp [bitlen]
  refine subtreeHash_zero m 27 (by omega) 1 (by omega) ?_
  intro l hl he
  unfold Memory.wordAt
  rcases hq : m.pages ((l >>> 7) &&& (2 ^ 20 - 1)) with _ | p
  · rfl
  · exact dataSlice_zero_data p.data (hz _ p hq) _ 32

theorem writeBytes_zero_over (d : Nat → Nat) (off : Nat) (b1 : List Nat)
    (hb : b1.length = 4) (hd : ∀ i, d i = 0) (i : Nat) :
    writeBytes (writeBytes d off b1) off (be4 0) i = 0 := by
  unfold writeBytes
  have hl0 : (be4 0).length = 4 := rfl
  rw [hl0, hb]
  by_cases hi : off ≤ i ∧ i < off + 4
  · rw [if_pos hi]
    exact be4_zero_getD _
  · rw [if_neg hi, if_neg hi]
    exact hd i

theorem set_memory_zero_root (m : Memory) (a : Nat) (hWF : m.WF) (ha : a < 2 ^ 32)
    (hal : a % 4 = 0)
    (hz : ∀ p, m.pages (a >>> 12) = some p → ∀ i, p.data i = 0) :
    ∃ m2, m.set_memory a 0 = .ok m2 ∧ m2.merkle_root = m.merkle_root := by
  obtain ⟨m2, hset, hWF2, hoff, p2, hp2, hcache, hdata⟩ := set_memory_WF m a 0 hWF ha hal
  refine ⟨m2, hset, ?_⟩
  rw [merkle_root_WF m hWF, merkle_root_WF m2 hWF2]
  congr 1
  have hb1 : bitlen 1 = 1 := by simp [bitlen]
  apply subtreeHash_congr m2 m 27 (by omega) 1 (by omega)
  intro l hl he
  unfold Memory.wordAt
  by_cases hq : (l >>> 7) &&& (2 ^ 20 - 1) = a >>> 12
  · rw [hq, hp2]
    rcases hmp : m.pages (a >>> 12) with _ | p
    · rw [hmp] at hdata
      dsimp only [Option.getD] at hdata
      dsimp only
      refine dataSlice_zero_data p2.data ?_ _ 32
      intro i
      rw [hdata]
      unfold writeBytes
      split
      · exact be4_zero_getD _
      · rfl
    · rw [hmp] at hdata
      dsimp only [Option.getD] at hdata
      dsimp only
      have hzp := hz p hmp
      have hz2 : ∀ i, p2.data i = 0 := by
        intro i
        rw [hdata]
        unfold writeBytes
        split
        · exact be4_zero_getD _
        · exact hzp i
      rw [dataSlice_zero_data p2.data hz2 _ 32, dataSlice_zero_data p.data hzp _ 32]
  · rw [hoff _ hq]


theorem trackMemAccess_state (i : InstState) (ea : Nat) (i2 : InstState)
    (h : trackMemAccess i ea = .ok i2) : i2.state = i.state := by
  unfold trackMemAccess at h
  split at h
  · split at h
    · cases h
    · split at h
      · cases h
      · cases h
        rfl
  · cases h
    rfl

theorem readPreimage_congr (i : InstState) (o1 o2 : Oracle) (k : List Nat) (off : Nat)
    (hk : o1.get k = o2.get k) :
    readPreimage i o1 k off = readPreimage i o2 k off := by
  unfold readPreimage
  rw [hk]

theorem deliverHints_congr (o1 o2 : Oracle) (hhint : ∀ f, o1.hint f = o2.hint f) :
    ∀ fs, deliverHints o1 fs = deliverHints o2 fs := by
  intro fs
  induction fs with
  | nil => rfl
  | cons f rest ih =>
    unfold deliverHints
    rw [hhint f]
    rcases o2.hint f with _ | u
    · rfl
    · exact ih

theorem sysRead_congr (i : InstState) (o1 o2 : Oracle)
    (hget : o1.get i.state.preimage_key = o2.get i.state.preimage_key) :
    sysRead i o1 = sysRead i o2 := by
  unfold sysRead
  dsimp only
  split
  · rfl
  split
  · split
    · rfl
    · next i1 heq =>
        have hs := trackMemAccess_state _ _ _ heq
        rw [readPreimage_congr i1 o1 o2 i1.state.preimage_key i1.state.preimage_offset
          (by rw [hs]; exact hget)]
  · rfl

theorem sysWrite_congr (i : InstState) (o1 o2 : Oracle)
    (hhint : ∀ f, o1.hint f = o2.hint f) :
    sysWrite i o1 = sysWrite i o2 := by
  unfold sysWrite
  dsimp only
  simp only [deliverHints_congr o1 o2 hhint]

theorem syscallDispatch_congr (i : InstState) (o1 o2 : Oracle)
    (hget : o1.get i.state.preimage_key = o2.get i.state.preimage_key)
    (hhint : ∀ f, o1.hint f = o2.hint f) :
    syscallDispatch i o1 = syscallDispatch i o2 := by
  unfold syscallDispatch
  dsimp only
  rw [sysRead_congr i o1 o2 hget, sysWrite_congr i o1 o2 hhint]

theorem handleSyscall_congr (i : InstState) (o1 o2 : Oracle)
    (hget : o1.get i.state.preimage_key = o2.get i.state.preimage_key)
    (hhint : ∀ f, o1.hint f = o2.hint f) :
    handleSyscall i o1 = handleSyscall i o2 := by
  unfold handleSyscall
  rw [syscallDispatch_congr i o1 o2 hget hhint]

theorem innerStep_congr (i : InstState) (o1 o2 : Oracle)
    (hget : o1.get i.state.preimage_key = o2.get i.state.preimage_key)
    (hhint : ∀ f, o1.hint f = o2.hint f) :
    innerStep i o1 = innerStep i o2 := by
  unfold innerStep
  by_cases hex : i.state.exited = true
  · simp only [if_pos hex]
  · simp only [if_neg hex]
    split <;> try rfl
    next instr hfetch =>
      by_cases hj : 2 ≤ instr >>> 26 ∧ instr >>> 26 ≤ 3
      · simp only [if_pos hj]
      · simp only [if_neg hj]
        by_cases hbr : 4 ≤ instr >>> 26 ∧ instr >>> 26 < 8 ∨ instr >>> 26 = 1
        · simp only [if_pos hbr]
        · simp only [if_neg hbr]
          split <;> try rfl
          next i2 rs memv2 sa rd heq =>
            have hkey : i2.state.preimage_key = i.state.preimage_key := by
              split at heq
              · rcases htr : trackMemAccess { i with state := { i.state with step := i.state.step + 1 } } (wrap32 (i.state.registers (instr >>> 21 &&& 31) + sign_extend (instr &&& 65535) 16) &&& 4294967292) with e | i2t
                · rw [htr] at heq
                  cases heq
                · rw [htr] at heq
                  dsimp only at heq
                  rcases hg2 : i2t.state.memory.get_memory (wrap32 (i.state.registers (instr >>> 21 &&& 31) + sign_extend (instr &&& 65535) 16) &&& 4294967292) with e | mv
                  · rw [hg2] at heq
                    dsimp only at heq
                    cases heq
                  · rw [hg2] at heq
                    dsimp only at heq
                    split at heq <;> cases heq <;> rw [trackMemAccess_state _ _ _ htr]
              · cases heq
                rfl
            have hsys2 := handleSyscall_congr i2 o1 o2 (by rw [hkey]; exact hget) hhint
            rw [hsys2]

/-! ## Claims -/

/-- Claim C1: the hint-write framing loop.  The claim (and the spec) say a
frame is delivered whenever its length `n` satisfies `n ≤ len(buffer) - 4`,
so two complete frames arriving in one write are both delivered.  The code
compares the other way (`hint_len >= len - 4`): on the buffer
`00 00 00 01 AA 00 00 00 01 BB` (two complete frames, `n = 1 < len - 4 = 6`)
it delivers nothing and leaves the buffer untouched, where the specified loop
delivers `[AA]` then `[BB]`; on `00 00 00 0A 01 02 03` (an incomplete frame,
which per the spec should simply wait) it panics with an out-of-range slice;
only an exactly-complete frame (`n = len - 4`) is delivered. -/
theorem claim_c1_hint_framing_eval :
    processHintsCode [0, 0, 0, 1, 0xAA, 0, 0, 0, 1, 0xBB] =
      some ([], [0, 0, 0, 1, 0xAA, 0, 0, 0, 1, 0xBB]) ∧
    processHintsSpec [0, 0, 0, 1, 0xAA, 0, 0, 0, 1, 0xBB] = ([[0xAA], [0xBB]], []) ∧
    processHintsCode [0, 0, 0, 10, 1, 2, 3] = none ∧
    processHintsSpec [0, 0, 0, 10, 1, 2, 3] = ([], [0, 0, 0, 10, 1, 2, 3]) ∧
    processHintsCode [0, 0, 0, 2, 7, 8] = some ([[7, 8]], []) := by
  decide

/-- Claim C4 (counterexample): `sign_extend` does *not* depend only on bit
`index - 1`: at `data = 0x100`, `index = 8` bit 7 is clear, so the claim
predicts the low 8 bits with cleared high bits, i.e. `0`; the code tests
`data >> 7 ≠ 0` and returns `0xFFFFFF00`.  Moreover at `index = 32` the
claim predicts `data` itself but the code (release-mode masked shifts)
returns `0`. -/
theorem claim_c4_counterexample :
    (1 ≤ 8 ∧ 8 ≤ 32 ∧ Nat.testBit 256 7 = false) ∧
    sign_extend 256 8 ≠ 256 % 2 ^ 8 ∧ sign_extend 256 8 = 4294967040 ∧
    sign_extend 5 32 ≠ 5 ∧ sign_extend 5 32 = 0 := by
  decide

/-- Claim C4 (amended): for `1 ≤ index ≤ 31`, `sign_extend data index`
returns the low `index` bits of `data`, with the high `32 - index` bits all
set iff *any* bit of `data` at position `≥ index - 1` is set (that is,
`data >> (index - 1) ≠ 0`), and all cleared otherwise; for `index = 32` the
result is `0` (Rust release-mode shift masking). -/
theorem claim_c4_sign_extend (data index : Nat) (hd : data < U32M) (h1 : 1 ≤ index)
    (h32 : index ≤ 32) :
    sign_extend data index =
      if index = 32 then 0
      else data % 2 ^ index + (if data >>> (index - 1) ≠ 0 then U32M - 2 ^ index else 0) := by
  by_cases hi : index = 32
  · subst hi
    simp only [if_pos rfl]
    unfold sign_extend
    have hs1 : sub32 32 1 = 31 := by rw [sub32_of_le] <;> simp [U32M]
    have hs2 : sub32 32 32 = 0 := by rw [sub32_of_le] <;> simp [U32M]
    rw [hs1, hs2]
    have h3 : shl32 1 0 = 1 := by rw [shl32_one] <;> norm_num
    rw [h3]
    have h4 : sub32 1 1 = 0 := by rw [sub32_of_le] <;> simp [U32M]
    rw [h4]
    have h5 : shl32 0 32 = 0 := by simp [shl32]
    have h6 : shl32 1 32 = 1 := by simp [shl32, Nat.shiftLeft_eq, U32M]
    rw [h5, h6, h4]
    simp [Nat.and_zero]
  · have hle : index ≤ 31 := by omega
    simp only [if_neg hi]
    unfold sign_extend
    have hs1 : sub32 index 1 = index - 1 := sub32_of_le _ _ h1 (by unfold U32M; omega)
    have hs2 : sub32 32 index = 32 - index := sub32_of_le _ _ (by omega) (by unfold U32M; omega)
    rw [hs1, hs2]
    have hshr : shr32 data (index - 1) = data >>> (index - 1) := by
      unfold shr32
      rw [Nat.mod_eq_of_lt hd, Nat.mod_eq_of_lt (by omega)]
    rw [hshr]
    have h3 : shl32 1 (32 - index) = 2 ^ (32 - index) := shl32_one _ (by omega)
    rw [h3]
    have h4 : sub32 (2 ^ (32 - index)) 1 = 2 ^ (32 - index) - 1 := by
      apply sub32_of_le
      · exact Nat.one_le_two_pow
      · unfold U32M
        have : (2 : Nat) ^ (32 - index) ≤ 2 ^ 31 := Nat.pow_le_pow_right (by norm_num) (by omega)
        omega
    rw [h4]
    have hpow : (2 : Nat) ^ index < U32M := by
      unfold U32M
      have : (2 : Nat) ^ index ≤ 2 ^ 31 := Nat.pow_le_pow_right (by norm_num) (by omega)
      omega
    have hidx : index % 32 = index := Nat.mod_eq_of_lt (by omega)
    have h5 : shl32 (2 ^ (32 - index) - 1) index = U32M - 2 ^ index := by
      unfold shl32
      rw [hidx, Nat.shiftLeft_eq]
      have he : (2 ^ (32 - index) - 1) * 2 ^ index = U32M - 2 ^ index := by
        have hm : 2 ^ (32 - index) * 2 ^ index = U32M := by
          rw [← pow_add]
          have h32i : 32 - index + index = 32 := by omega
          rw [h32i]
          norm_num [U32M]
        have h1p : (1 : Nat) ≤ 2 ^ (32 - index) := Nat.one_le_two_pow
        calc (2 ^ (32 - index) - 1) * 2 ^ index
            = 2 ^ (32 - index) * 2 ^ index - 1 * 2 ^ index := by
              rw [Nat.sub_mul]
          _ = U32M - 2 ^ index := by rw [hm, one_mul]
      have hU : (0 : Nat) < U32M := by norm_num [U32M]
      have h1p : (1 : Nat) ≤ 2 ^ index := Nat.one_le_two_pow
      rw [he, Nat.mod_eq_of_lt (by omega)]
    rw [h5]
    have h6 : shl32 1 index = 2 ^ index := shl32_one _ (by omega)
    rw [h6]
    have h7 : sub32 (2 ^ index) 1 = 2 ^ index - 1 := by
      apply sub32_of_le _ _ Nat.one_le_two_pow (by omega)
    rw [h7]
    dsimp only
    have h8 : data &&& (2 ^ index - 1) = data % 2 ^ index :=
      Nat.and_pow_two_sub_one_eq_mod data index
    rw [h8]
    by_cases hsg : data >>> (index - 1) ≠ 0
    · simp only [if_pos hsg]
      have hsplit : U32M - 2 ^ index = 2 ^ index * (2 ^ (32 - index) - 1) := by
        rw [Nat.mul_sub, mul_one, ← pow_add]
        have h32i : index + (32 - index) = 32 := by omega
        rw [h32i]
        norm_num [U32M]
      rw [hsplit]
      exact lor_two_pow_mul_eq_add index _ _ (Nat.mod_lt _ (Nat.pos_pow_of_pos _ (by norm_num)))
    · simp [hsg]

/-- Claim C4 (witness): the amended theorem applied at `data = 0x8000`,
`index = 16` (bit 15 set: high bits all set). -/
theorem claim_c4_sign_extend_witness :
    32768 < U32M ∧ 1 ≤ 16 ∧ (16 : Nat) ≤ 32 ∧ sign_extend 32768 16 = 4294934528 := by
  refine ⟨by norm_num [U32M], by norm_num, by norm_num, ?_⟩
  rw [claim_c4_sign_extend 32768 16 (by norm_num [U32M]) (by norm_num) (by norm_num)]
  decide

/-- Claim C10: a `div` (function 0x1a) whose `rt` operand is zero does not
return an error `Result`: the step aborts with a native division-by-zero
panic (a distinguished failure case of the total embedding).  The machine
below is about to execute the word `0x1A` (`div $0, $0`: opcode 0, function
0x1a, both operand registers zero) at `pc = 0`. -/
theorem claim_c10_div_by_zero_panics :
    innerStep (instState0 0x1A) oracle0 = .error .divideByZeroPanic ∧
    (instState0 0x1A).state.memory.get_memory (instState0 0x1A).state.pc = .ok 0x1A ∧
    0x1A >>> 26 = 0 ∧ 0x1A &&& 0x3F = 0x1a ∧
    (instState0 0x1A).state.registers ((0x1A >>> 16) &&& 0x1F) = 0 :=
  ⟨rfl, rfl, rfl, rfl, rfl⟩

theorem claim_c5_alignment (m : Memory) (a v : Nat) :
    ((∃ e, m.get_memory a = .error e) ↔ a % 4 ≠ 0) ∧
    ((∃ e, m.set_memory a v = .error e) ↔ a % 4 ≠ 0) ∧
    (a % 4 = 0 → m.pages (a >>> 12) = none → m.get_memory a = .ok 0) ∧
    (a % 4 = 0 → ∃ m2, m.set_memory a v = .ok m2 ∧ m2.pages (a >>> 12) ≠ none) := by
  refine ⟨⟨?_, ?_⟩, ⟨?_, ?_⟩, ?_, ?_⟩
  · rintro ⟨e, he⟩
    by_contra hc
    obtain ⟨w, hw⟩ := get_memory_aligned m a hc
    rw [hw] at he
    cases he
  · intro h
    refine ⟨.unalignedAccess a, ?_⟩
    unfold Memory.get_memory
    rw [if_pos (by rw [and_three_eq_mod]; exact h)]
  · rintro ⟨e, he⟩
    by_contra hc
    obtain ⟨m2, p2, hw, -⟩ := set_memory_ok m a v hc
    rw [hw] at he
    cases he
  · intro h
    refine ⟨.unalignedAccess a, ?_⟩
    unfold Memory.set_memory
    rw [if_pos (by rw [and_three_eq_mod]; exact h)]
  · intro hal hp
    unfold Memory.get_memory
    rw [if_neg (by simp [and_three_eq_mod, hal]), hp]
  · intro hal
    obtain ⟨m2, p2, hw, hpg, -⟩ := set_memory_ok m a v hal
    exact ⟨m2, hw, by rw [hpg]; simp⟩

theorem claim_c5_alignment_witness :
    (Memory.new.get_memory 13 = .error (.unalignedAccess 13)) ∧
    ((0:Nat) % 4 = 0) ∧ Memory.new.get_memory 0 = .ok 0 ∧
    (∃ m2, Memory.new.set_memory 0 7 = .ok m2 ∧ m2.pages (0 >>> 12) ≠ none) := by
  refine ⟨?_, rfl, ?_, (claim_c5_alignment Memory.new 0 7).2.2.2 rfl⟩
  · obtain ⟨e, he⟩ := (claim_c5_alignment Memory.new 13 0).1.mpr (by decide)
    rw [he]
    have : e = .unalignedAccess 13 := by
      rw [Memory.get_memory] at he
      simp only [show (13 &&& 3 ≠ 0) = True by simp, if_true] at he
      cases he
      rfl
    rw [this]
  · exact (claim_c5_alignment Memory.new 0 0).2.2.1 rfl rfl

/-- Claim C8: a syscall step (opcode 0, function 0x0C) whose syscall number
(register 2) is none of {4090, 4045, 4120, 4246, 4003, 4004, 4055} succeeds,
sets `r2 := 0` and `r7 := 0`, advances `pc ← next_pc` and
`next_pc ← next_pc + 4`, increments the step counter, and leaves every other
register, the memory and all remaining fields unchanged (the conclusion is a
full structural equality). -/
theorem claim_c8_unknown_syscall (i : InstState) (o : Oracle) (instr : Nat)
    (hex : i.state.exited = false)
    (hfetch : i.state.memory.get_memory i.state.pc = .ok instr)
    (hop : instr >>> 26 = 0)
    (hfn : instr &&& 0x3F = 0x0C)
    (hn : i.state.registers 2 ≠ 4090 ∧ i.state.registers 2 ≠ 4045 ∧ i.state.registers 2 ≠ 4120 ∧
          i.state.registers 2 ≠ 4246 ∧ i.state.registers 2 ≠ 4003 ∧ i.state.registers 2 ≠ 4004 ∧
          i.state.registers 2 ≠ 4055) :
    innerStep i o = .ok { i with state := { i.state with
      step := i.state.step + 1,
      registers := Function.update (Function.update i.state.registers 2 0) 7 0,
      pc := i.state.next_pc,
      next_pc := wrap32 (i.state.next_pc + 4) } } := by
  obtain ⟨n1, n2, n3, n4, n5, n6, n7⟩ := hn
  unfold innerStep
  simp only [hex, Bool.false_eq_true, if_false, hfetch, hop, hfn]
  norm_num
  have hexec : ∀ rs rt memv, execute instr rs rt memv = .ok rs := by
    intro rs rt memv
    unfold execute
    simp only [hop, hfn]
    norm_num
  rw [hexec]
  unfold handleSyscall syscallDispatch
  simp only [n1, n2, n3, n4, n5, n6, n7, if_neg, State.setReg]
  norm_num

/-- Claim C8 (witness): the unknown-syscall theorem applied to a machine about
to execute `syscall` with `r2 = 0`. -/
theorem claim_c8_unknown_syscall_witness :
    innerStep (instState0 0x0C) oracle0 = .ok { instState0 0x0C with state :=
      { (instState0 0x0C).state with
        step := (instState0 0x0C).state.step + 1,
        registers := Function.update (Function.update (instState0 0x0C).state.registers 2 0) 7 0,
        pc := (instState0 0x0C).state.next_pc,
        next_pc := wrap32 ((instState0 0x0C).state.next_pc + 4) } } := by
  exact claim_c8_unknown_syscall (instState0 0x0C) oracle0 0x0C rfl rfl rfl rfl
    ⟨by decide, by decide, by decide, by decide, by decide, by decide, by decide⟩

/-- Claim C7: for a step whose fetched instruction is a branch (opcodes 1, 4,
5, 6, 7) or a jump (j, jal, jr, jalr), the delay-slot error
(`UnexpectedBranchInDelaySlot` / `UnexpectedJumpInDelaySlot`, carrying the
current pc) is returned iff `next_pc ≠ pc + 4` at the start of the
instruction; when `next_pc = pc + 4` the transfer proceeds: `pc ← next_pc`,
and `next_pc` becomes the class target (the 256MB-region jump target for
j/jal, `rs` for jr/jalr, and the taken-or-fall-through target for branches). -/
theorem claim_c7_delay_slot (i : InstState) (o : Oracle) (instr : Nat)
    (hex : i.state.exited = false)
    (hfetch : i.state.memory.get_memory i.state.pc = .ok instr)
    (hcls : (instr >>> 26 = 1 ∨ instr >>> 26 = 4 ∨ instr >>> 26 = 5 ∨ instr >>> 26 = 6 ∨
             instr >>> 26 = 7) ∨
            (instr >>> 26 = 2 ∨ instr >>> 26 = 3 ∨
             (instr >>> 26 = 0 ∧ (instr &&& 0x3F = 8 ∨ instr &&& 0x3F = 9)))) :
    (i.state.next_pc ≠ wrap32 (i.state.pc + 4) →
      ((instr >>> 26 = 1 ∨ instr >>> 26 = 4 ∨ instr >>> 26 = 5 ∨ instr >>> 26 = 6 ∨
        instr >>> 26 = 7) →
        innerStep i o = .error (.unexpectedBranchInDelaySlot i.state.pc)) ∧
      ((instr >>> 26 = 2 ∨ instr >>> 26 = 3 ∨
        (instr >>> 26 = 0 ∧ (instr &&& 0x3F = 8 ∨ instr &&& 0x3F = 9))) →
        innerStep i o = .error (.unexpectedJumpInDelaySlot i.state.pc))) ∧
    (i.state.next_pc = wrap32 (i.state.pc + 4) →
      ∃ i2, innerStep i o = .ok i2 ∧ i2.state.pc = i.state.next_pc ∧
        ((instr >>> 26 = 2 ∨ instr >>> 26 = 3) →
          i2.state.next_pc = (i.state.next_pc &&& 0xF0000000) ||| ((instr &&& 0x03FFFFFF) <<< 2)) ∧
        (instr >>> 26 = 0 →
          i2.state.next_pc = i.state.registers ((instr >>> 21) &&& 0x1F)) ∧
        ((instr >>> 26 = 1 ∨ instr >>> 26 = 4 ∨ instr >>> 26 = 5 ∨ instr >>> 26 = 6 ∨
          instr >>> 26 = 7) →
          i2.state.next_pc = wrap32 (i.state.pc + 4 + shl32 (sign_extend (instr &&& 0xFFFF) 16) 2) ∨
          i2.state.next_pc = wrap32 (i.state.next_pc + 4))) := by
  rcases hcls with hbr | hjp
  · -- branch opcodes: the step reduces to handleBranch on the bumped state
    have hop1 : ¬(2 ≤ instr >>> 26 ∧ instr >>> 26 ≤ 3) := by
      rcases hbr with h | h | h | h | h <;> omega
    have hop2 : (4 ≤ instr >>> 26 ∧ instr >>> 26 < 8) ∨ instr >>> 26 = 1 := by
      rcases hbr with h | h | h | h | h <;> omega
    have hred : innerStep i o =
        handleBranch { i with state := { i.state with step := i.state.step + 1 } }
          (instr >>> 26) instr ((instr >>> 16) &&& 0x1F)
          (i.state.registers ((instr >>> 21) &&& 0x1F)) := by
      unfold innerStep
      simp only [hex, Bool.false_eq_true, if_false, hfetch]
      rw [if_neg hop1, if_pos hop2]
    refine ⟨?_, ?_⟩
    · intro hne
      refine ⟨fun _ => ?_, fun hj => ?_⟩
      · rw [hred]
        exact handleBranch_delay _ _ _ _ _ hne
      · exfalso
        rcases hbr with h | h | h | h | h <;> rcases hj with h2 | h2 | ⟨h2, -⟩ <;> omega
    · intro heq
      obtain ⟨j2, hj2, hpc, htgt⟩ :=
        handleBranch_ok { i with state := { i.state with step := i.state.step + 1 } }
          (instr >>> 26) instr ((instr >>> 16) &&& 0x1F)
          (i.state.registers ((instr >>> 21) &&& 0x1F)) heq
      refine ⟨j2, by rw [hred]; exact hj2, hpc, ?_, ?_, fun _ => htgt⟩
      · intro hj
        exfalso
        rcases hbr with h | h | h | h | h <;> rcases hj with h2 | h2 <;> omega
      · intro hj
        exfalso
        rcases hbr with h | h | h | h | h <;> omega
  · -- jumps
    rcases hjp with h2 | h3 | ⟨h0, hfn⟩
    · -- j
      have hcond : 2 ≤ instr >>> 26 ∧ instr >>> 26 ≤ 3 := by omega
      have hred : innerStep i o =
          handleJump { i with state := { i.state with step := i.state.step + 1 } } 0
            ((i.state.next_pc &&& 0xF0000000) ||| ((instr &&& 0x03FFFFFF) <<< 2)) := by
        unfold innerStep
        simp only [hex, Bool.false_eq_true, if_false, hfetch]
        rw [if_pos hcond, if_neg (by omega)]
      refine ⟨?_, ?_⟩
      · intro hne
        refine ⟨fun hb => ?_, fun _ => ?_⟩
        · exfalso
          rcases hb with h | h | h | h | h <;> omega
        · rw [hred]
          exact handleJump_delay _ _ _ hne
      · intro heq
        obtain ⟨j2, hj2, hpc, htgt⟩ :=
          handleJump_ok { i with state := { i.state with step := i.state.step + 1 } } 0
            ((i.state.next_pc &&& 0xF0000000) ||| ((instr &&& 0x03FFFFFF) <<< 2)) heq
        refine ⟨j2, by rw [hred]; exact hj2, hpc, fun _ => htgt, ?_, ?_⟩
        · intro h0
          omega
        · intro hb
          exfalso
          rcases hb with h | h | h | h | h <;> omega
    · -- jal
      have hcond : 2 ≤ instr >>> 26 ∧ instr >>> 26 ≤ 3 := by omega
      have hred : innerStep i o =
          handleJump { i with state := { i.state with step := i.state.step + 1 } } 31
            ((i.state.next_pc &&& 0xF0000000) ||| ((instr &&& 0x03FFFFFF) <<< 2)) := by
        unfold innerStep
        simp only [hex, Bool.false_eq_true, if_false, hfetch]
        rw [if_pos hcond, if_pos (by omega)]
      refine ⟨?_, ?_⟩
      · intro hne
        refine ⟨fun hb => ?_, fun _ => ?_⟩
        · exfalso
          rcases hb with h | h | h | h | h <;> omega
        · rw [hred]
          exact handleJump_delay _ _ _ hne
      · intro heq
        obtain ⟨j2, hj2, hpc, htgt⟩ :=
          handleJump_ok { i with state := { i.state with step := i.state.step + 1 } } 31
            ((i.state.next_pc &&& 0xF0000000) ||| ((instr &&& 0x03FFFFFF) <<< 2)) heq
        refine ⟨j2, by rw [hred]; exact hj2, hpc, fun _ => htgt, ?_, ?_⟩
        · intro h0
          omega
        · intro hb
          exfalso
          rcases hb with h | h | h | h | h <;> omega
    · -- jr / jalr
      have hexec : ∀ rs rt memv, execute instr rs rt memv = .ok rs := by
        intro rs rt memv
        unfold execute
        rcases hfn with hfn | hfn <;> simp only [h0, hfn] <;> norm_num
      have hred : innerStep i o =
          handleJump { i with state := { i.state with step := i.state.step + 1 } }
            (if instr &&& 0x3F = 9 then (instr >>> 11) &&& 0x1F else 0)
            (i.state.registers ((instr >>> 21) &&& 0x1F)) := by
        unfold innerStep
        simp only [hex, Bool.false_eq_true, if_false, hfetch, h0]
        norm_num
        rw [hexec]
        rcases hfn with hfn | hfn <;> simp only [hfn] <;> norm_num
      refine ⟨?_, ?_⟩
      · intro hne
        refine ⟨fun hb => ?_, fun _ => ?_⟩
        · exfalso
          rcases hb with h | h | h | h | h <;> omega
        · rw [hred]
          exact handleJump_delay _ _ _ hne
      · intro heq
        obtain ⟨j2, hj2, hpc, htgt⟩ :=
          handleJump_ok { i with state := { i.state with step := i.state.step + 1 } }
            (if instr &&& 0x3F = 9 then (instr >>> 11) &&& 0x1F else 0)
            (i.state.registers ((instr >>> 21) &&& 0x1F)) heq
        refine ⟨j2, by rw [hred]; exact hj2, hpc, ?_, fun _ => htgt, ?_⟩
        · intro hj
          exfalso
          rcases hj with h | h <;> omega
        · intro hb
          exfalso
          rcases hb with h | h | h | h | h <;> omega

/-- Claim C7 (witness): the delay-slot theorem applied to a machine executing
`beq $0, $0, 0` at `pc = 0` with a clean delay slot. -/
theorem claim_c7_delay_slot_witness :
    ∃ i2, innerStep (instState0 0x10000000) oracle0 = .ok i2 ∧
      i2.state.pc = (instState0 0x10000000).state.next_pc := by
  obtain ⟨-, hok⟩ := claim_c7_delay_slot (instState0 0x10000000) oracle0 0x10000000 rfl rfl
    (Or.inl (by decide))
  obtain ⟨i2, h1, h2, -⟩ := hok (by decide)
  exact ⟨i2, h1, h2⟩


/-- C9: `encode_witness` serialises the state into a 226-byte witness whose
byte 88 is the exit code and byte 89 the exited flag, and `state_hash` is the
keccak-256 of that witness with byte 0 replaced by the VM status: 0 for a
successful exit (code 0), 1 for exit code 1, 2 for any other exit code, and 3
while the machine has not exited. -/
theorem claim_c9_state_hash (s : State) (w : List Nat)
    (hkey : s.preimage_key.length = 32)
    (hnodes : ∀ g h, s.memory.nodes g = some (some h) → h.length = 32)
    (hcache : ∀ pi p, s.memory.pages pi = some p → ∀ g, (p.cache g).length = 32)
    (hw : s.encode_witness = .ok w) :
    w.length = 226 ∧
    stateHash w = vmStatus s.exited s.exit_code :: (keccak256 w).drop 1 ∧
    ((stateHash w).getD 0 0 = 0 ↔ s.exited = true ∧ s.exit_code = 0) ∧
    ((stateHash w).getD 0 0 = 1 ↔ s.exited = true ∧ s.exit_code = 1) ∧
    ((stateHash w).getD 0 0 = 2 ↔ s.exited = true ∧ s.exit_code ≠ 0 ∧ s.exit_code ≠ 1) ∧
    ((stateHash w).getD 0 0 = 3 ↔ s.exited = false) := by
  unfold State.encode_witness at hw
  rcases hroot : s.memory.merkle_root with e | root <;> rw [hroot] at hw
  · cases hw
  cases hw
  simp only [List.append_assoc]
  have hlen32 : root.length = 32 := merkle_root_length s.memory hnodes hcache root hroot
  have hreg : (((List.range 32).map fun r => be4 (s.registers r)).flatten).length = 128 := by
    rw [List.length_flatten, List.map_map]
    have : (List.range 32).map (List.length ∘ fun r => be4 (s.registers r)) =
        (List.range 32).map fun _ => 4 := by
      apply List.map_congr_left
      intro r _
      rfl
    rw [this, List.map_const', List.sum_replicate]
    rfl
  have hb4 : ∀ x, (be4 x).length = 4 := fun _ => rfl
  have hb8 : (be8 s.step).length = 8 := rfl
  have hwlen : (root ++ (s.preimage_key ++ (be4 s.preimage_offset ++ (be4 s.pc ++
      (be4 s.next_pc ++ (be4 s.lo ++ (be4 s.hi ++ (be4 s.heap ++ ([s.exit_code] ++
      ([if s.exited then 1 else 0] ++ (be8 s.step ++
      ((List.range 32).map fun r => be4 (s.registers r)).flatten))))))))))).length = 226 := by
    simp only [List.length_append, List.length_singleton, hlen32, hkey, hb4, hb8, hreg]
  have h88 : (root ++ (s.preimage_key ++ (be4 s.preimage_offset ++ (be4 s.pc ++
      (be4 s.next_pc ++ (be4 s.lo ++ (be4 s.hi ++ (be4 s.heap ++ ([s.exit_code] ++
      ([if s.exited then 1 else 0] ++ (be8 s.step ++
      ((List.range 32).map fun r => be4 (s.registers r)).flatten))))))))))).getD 88 0 =
      s.exit_code := by
    rw [show (88 : Nat) = 32 + 56 from rfl, getD_skip root _ 32 56 0 hlen32]
    rw [show (56 : Nat) = 32 + 24 from rfl, getD_skip s.preimage_key _ 32 24 0 hkey]
    rw [show (24 : Nat) = 4 + 20 from rfl, getD_skip _ _ 4 20 0 (hb4 _)]
    rw [show (20 : Nat) = 4 + 16 from rfl, getD_skip _ _ 4 16 0 (hb4 _)]
    rw [show (16 : Nat) = 4 + 12 from rfl, getD_skip _ _ 4 12 0 (hb4 _)]
    rw [show (12 : Nat) = 4 + 8 from rfl, getD_skip _ _ 4 8 0 (hb4 _)]
    rw [show (8 : Nat) = 4 + 4 from rfl, getD_skip _ _ 4 4 0 (hb4 _)]
    rw [show (4 : Nat) = 4 + 0 from rfl, getD_skip _ _ 4 0 0 (hb4 _)]
    rfl
  have h89 : (root ++ (s.preimage_key ++ (be4 s.preimage_offset ++ (be4 s.pc ++
      (be4 s.next_pc ++ (be4 s.lo ++ (be4 s.hi ++ (be4 s.heap ++ ([s.exit_code] ++
      ([if s.exited then 1 else 0] ++ (be8 s.step ++
      ((List.range 32).map fun r => be4 (s.registers r)).flatten))))))))))).getD 89 0 =
      (if s.exited then 1 else 0) := by
    rw [show (89 : Nat) = 32 + 57 from rfl, getD_skip root _ 32 57 0 hlen32]
    rw [show (57 : Nat) = 32 + 25 from rfl, getD_skip s.preimage_key _ 32 25 0 hkey]
    rw [show (25 : Nat) = 4 + 21 from rfl, getD_skip _ _ 4 21 0 (hb4 _)]
    rw [show (21 : Nat) = 4 + 17 from rfl, getD_skip _ _ 4 17 0 (hb4 _)]
    rw [show (17 : Nat) = 4 + 13 from rfl, getD_skip _ _ 4 13 0 (hb4 _)]
    rw [show (13 : Nat) = 4 + 9 from rfl, getD_skip _ _ 4 9 0 (hb4 _)]
    rw [show (9 : Nat) = 4 + 5 from rfl, getD_skip _ _ 4 5 0 (hb4 _)]
    rw [show (5 : Nat) = 4 + 1 from rfl, getD_skip _ _ 4 1 0 (hb4 _)]
    rw [show (1 : Nat) = 1 + 0 from rfl, getD_skip [s.exit_code] _ 1 0 0 rfl]
    rfl
  have hsh : ∀ l : List Nat, l.getD 88 0 = s.exit_code →
      l.getD 89 0 = (if s.exited then 1 else 0) →
      stateHash l = vmStatus s.exited s.exit_code :: (keccak256 l).drop 1 := by
    intro l h8 h9
    unfold stateHash
    dsimp only
    rw [show (32 * 2 + 4 * 6 : Nat) = 88 from by norm_num]
    rw [h8, show (88 + 1 : Nat) = 89 from rfl, h9]
    cases s.exited <;> rfl
  have hv : ∀ (a : Nat) (l : List Nat), (a :: l).getD 0 0 = a := fun _ _ => rfl
  refine ⟨hwlen, hsh _ h88 h89, ?_, ?_, ?_, ?_⟩ <;>
    rw [hsh _ h88 h89, hv] <;> unfold vmStatus <;>
    cases s.exited <;>
    by_cases h0 : s.exit_code = 0 <;> by_cases h1 : s.exit_code = 1 <;> simp_all

theorem claim_c9_state_hash_witness :
    State.new.encode_witness = .ok c9wit ∧ c9wit.length = 226 ∧
    stateHash c9wit = vmStatus State.new.exited State.new.exit_code :: (keccak256 c9wit).drop 1 ∧
    ((stateHash c9wit).getD 0 0 = 3 ↔ State.new.exited = false) := by
  have hroot : Memory.new.merkle_root = .ok (zeroHashes 27) := by
    simp [Memory.merkle_root, Memory.merkleize_subtree, Memory.merkleizeF, Memory.new, bitlen]
  have hw : State.new.encode_witness = .ok c9wit := by
    unfold State.encode_witness
    rw [show State.new.memory = Memory.new from rfl, hroot]
    rfl
  obtain ⟨h1, h2, _, _, _, h6⟩ := claim_c9_state_hash State.new c9wit
    (by simp [State.new])
    (by intro g hl hh; simp [State.new, Memory.new] at hh)
    (by intro pi p hp; simp [State.new, Memory.new] at hp)
    hw
  exact ⟨hw, h1, h2, h6⟩


/-- C2: for a well-formed `Memory` and a 4-byte-aligned 32-bit address, the
28-entry `merkle_proof` starts with the 32-byte leaf word containing the
address, every entry is 32 bytes, and folding the leaf with the 27 siblings by
keccak -- orientation chosen by the address path bits -- yields exactly
`merkle_root`. -/
theorem claim_c2_merkle_proof (m : Memory) (a : Nat) (hWF : m.WF) (ha : a < 2 ^ 32)
    (hal : a % 4 = 0) :
    ∃ pr root, m.merkle_proof a = .ok pr ∧ m.merkle_root = .ok root ∧
      pr.length = 28 ∧ (∀ x ∈ pr, x.length = 32) ∧
      pr.getD 0 [] = m.wordAt (2 ^ 27 + a >>> 5) ∧
      foldProof (pr.getD 0 []) (pr.drop 1) (a >>> 5) = root := by
  obtain ⟨pr, hpr, hlen, hmem, hhead, hfold⟩ := traverse_branch_WF m hWF a ha 27 0 (by omega)
  have hzero : (2 : Nat) ^ 0 + a >>> (32 - 0) = 1 := by
    have h32 : a >>> 32 = 0 := by
      rw [Nat.shiftRight_eq_div_pow]
      exact Nat.div_eq_of_lt (by omega)
    simpa using h32
  rw [hzero] at hpr hfold
  have hb1 : bitlen 1 = 1 := by simp [bitlen]
  have hroot := merkleizeF_WF m hWF 28 1 (by norm_num) (by omega) (by omega)
  have hb28 : 28 ≤ bitlen (2 ^ 27 + a >>> 5) := by
    rw [le_bitlen_iff]
    omega
  refine ⟨pr, m.subtreeHash 1, ?_, ?_, hlen, hmem, ?_, ?_⟩
  · unfold Memory.merkle_proof
    exact hpr
  · unfold Memory.merkle_root Memory.merkleize_subtree
    exact hroot
  · rw [hhead]
    exact subtreeHash_word m _ hb28
  · rw [hhead]
    exact hfold

theorem claim_c2_merkle_proof_witness :
    Memory.new.WF ∧ (0x10000 : Nat) < 2 ^ 32 ∧ (0x10000 : Nat) % 4 = 0 ∧
    (∃ pr root, Memory.new.merkle_proof 0x10000 = .ok pr ∧
      Memory.new.merkle_root = .ok root ∧
      pr.length = 28 ∧ (∀ x ∈ pr, x.length = 32) ∧
      pr.getD 0 [] = Memory.new.wordAt (2 ^ 27 + 0x10000 >>> 5) ∧
      foldProof (pr.getD 0 []) (pr.drop 1) (0x10000 >>> 5) = root) :=
  ⟨memory_new_WF, by norm_num, by norm_num,
    claim_c2_merkle_proof Memory.new 0x10000 memory_new_WF (by norm_num) (by norm_num)⟩


/-- C6: a zero write into a region whose enclosing page is absent or all-zero
leaves `merkle_root` unchanged; a fresh `Memory` has root `zero_hashes[27]`;
and on a fresh `Memory`, `set_memory 0xF004 1` followed by `set_memory 0xF004 0`
brings the root back to `zero_hashes[27]`. -/
theorem claim_c6_zero_write :
    (∀ (m : Memory) (a : Nat), m.WF → a < 2 ^ 32 → a % 4 = 0 →
      (∀ p, m.pages (a >>> 12) = some p → ∀ i, p.data i = 0) →
      ∃ m2, m.set_memory a 0 = .ok m2 ∧ m2.merkle_root = m.merkle_root) ∧
    Memory.new.merkle_root = .ok (zeroHashes 27) ∧
    (∃ m1 m2, Memory.new.set_memory 0xF004 1 = .ok m1 ∧
      m1.set_memory 0xF004 0 = .ok m2 ∧ m2.merkle_root = .ok (zeroHashes 27)) := by
  have hnewroot : Memory.new.merkle_root = .ok (zeroHashes 27) := by
    rw [merkle_root_WF Memory.new memory_new_WF]
    congr 1
    refine subtree_root_zero Memory.new ?_
    intro pi p hp
    simp [Memory.new] at hp
  refine ⟨?_, hnewroot, ?_⟩
  · intro m a hWF ha hal hz
    exact set_memory_zero_root m a hWF ha hal hz
  · obtain ⟨m1, hset1, hWF1, hoff1, p1, hp1, hc1, hd1⟩ :=
      set_memory_WF Memory.new 0xF004 1 memory_new_WF (by norm_num) (by norm_num)
    obtain ⟨m2, hset2, hWF2, hoff2, p2, hp2, hc2, hd2⟩ :=
      set_memory_WF m1 0xF004 0 hWF1 (by norm_num) (by norm_num)
    refine ⟨m1, m2, hset1, hset2, ?_⟩
    rw [merkle_root_WF m2 hWF2]
    congr 1
    refine subtree_root_zero m2 ?_
    intro pi p hp
    by_cases hpi : pi = 0xF004 >>> 12
    · subst hpi
      rw [hp2] at hp
      cases hp
      intro i
      rw [hd2, hp1]
      dsimp only [Option.getD]
      rw [hd1]
      exact writeBytes_zero_over _ _ (be4 1) rfl (fun j => rfl) i
    · rw [hoff2 _ hpi, hoff1 _ hpi] at hp
      simp [Memory.new] at hp


/-- C3: `step` is a deterministic function of the pre-state, the
`capture_witness` flag, and the oracle responses: two oracles that return the
same preimage for the one key the step can query (the pre-state
`preimage_key`) and the same hint acknowledgements yield identical results --
the same post-state (hence the same state hash) and the same step witness. -/
theorem claim_c3_determinism (i : InstState) (pf : Bool) (o1 o2 : Oracle)
    (hget : o1.get i.state.preimage_key = o2.get i.state.preimage_key)
    (hhint : ∀ f, o1.hint f = o2.hint f) :
    step i pf o1 = step i pf o2 := by
  unfold step
  dsimp only
  have hi2 := innerStep_congr { i with mem_proof_enabled := pf, last_mem_access := U32M - 1, last_preimage_offset := U32M - 1 } o1 o2 hget hhint
  rw [hi2]

theorem claim_c3_determinism_witness :
    oracle0.get ((instState0 0x0C).state.preimage_key) =
      oracleAlt.get ((instState0 0x0C).state.preimage_key) ∧
    (∀ f, oracle0.hint f = oracleAlt.hint f) ∧
    oracle0.get [1] ≠ oracleAlt.get [1] ∧
    step (instState0 0x0C) false oracle0 = step (instState0 0x0C) false oracleAlt :=
  ⟨by decide, fun f => rfl, by decide,
    claim_c3_determinism (instState0 0x0C) false oracle0 oracleAlt (by decide) (fun f => rfl)⟩

end Cannon
